import Mathlib

/-!
# A shallow embedding of `tatum::TimingGraph`

This file embeds the timing-graph component declared in
`src/libtatum/graph/TimingGraph.hpp` (struct-of-arrays directed graph with
levelization and memory-layout optimization) and proves the behavioural
properties stated in the repository's specification.

The header in the repository declares the class, its data members and its
inline accessors; the out-of-line bodies (`add_node`, `add_edge`, `levelize`,
`optimize_node_layout`, `optimize_edge_layout`) and the helper headers
(`tatum_linear_map.hpp`, `timing_graph_fwd.hpp`) are not part of the sources
under study, so those operations are modelled from the specification, as
recorded in the doc comment of each such definition.

Identifiers (`NodeId`, `EdgeId`, `LevelId`, `DomainId`) are dense indices and
are embedded as `Nat`.  A `tatum::util::linear_map<K,V>` is embedded as
`List V` indexed by position.
-/

namespace Tatum

/-- Modelled from the spec: the error taxonomy of §7 of the specification
(the C++ bodies that raise these conditions are not under `src/`). -/
inductive TgError where
  | InvalidHandle : TgError
  | InvalidNodeReference : TgError
  | GraphNotLevelized : TgError
  | CyclicGraphError : Nat → TgError
deriving DecidableEq

/-- Modelled from the spec: `TN_Type` is declared in `timing_graph_fwd.hpp`
which is not under `src/`; the spec describes it as an enumerated node kind
(primary input, primary output, combinational pin, sequential source/sink,
clock source).  The graph never interprets it. -/
inductive TN_Type where
  | INPAD_SOURCE : TN_Type
  | OUTPAD_SINK : TN_Type
  | COMB_PIN : TN_Type
  | SEQ_SOURCE : TN_Type
  | SEQ_SINK : TN_Type
  | CLOCK_SOURCE : TN_Type
deriving DecidableEq, Inhabited

/-- The `TimingGraph` data members, one field per SoA array of the C++ class
(`TimingGraph.hpp`, private data section).  `levelized_` is modelled from the
spec: the phase contract (`GraphNotLevelized`, §7/§9 of the specification) is
explicit state here because the C++ bodies enforcing it are not under `src/`. -/
structure TimingGraph where
  node_ids_ : List Nat
  node_types_ : List TN_Type
  node_clock_domains_ : List Nat
  node_out_edges_ : List (List Nat)
  node_in_edges_ : List (List Nat)
  node_is_clock_source_ : List Bool
  edge_ids_ : List Nat
  edge_sink_nodes_ : List Nat
  edge_src_nodes_ : List Nat
  level_ids_ : List Nat
  level_nodes_ : List (List Nat)
  primary_outputs_ : List Nat
  levelized_ : Bool
deriving DecidableEq

namespace TimingGraph

/-- Number of nodes currently in the graph (`node_ids_.size()`). -/
def numNodes (g : TimingGraph) : Nat := g.node_ids_.length

/-- Number of edges currently in the graph (`edge_ids_.size()`). -/
def numEdges (g : TimingGraph) : Nat := g.edge_ids_.length

/-- Number of levels (`level_ids_.size()`); meaningful only once levelized. -/
def numLevels (g : TimingGraph) : Nat := g.level_ids_.length

/-- Internal direct access `node_out_edges_[n]` (member-array indexing). -/
def outD (g : TimingGraph) (n : Nat) : List Nat := g.node_out_edges_.getD n []

/-- Internal direct access `node_in_edges_[n]` (member-array indexing). -/
def inD (g : TimingGraph) (n : Nat) : List Nat := g.node_in_edges_.getD n []

/-- Internal direct access `edge_src_nodes_[e]` (member-array indexing). -/
def srcD (g : TimingGraph) (e : Nat) : Nat := g.edge_src_nodes_.getD e 0

/-- Internal direct access `edge_sink_nodes_[e]` (member-array indexing). -/
def sinkD (g : TimingGraph) (e : Nat) : Nat := g.edge_sink_nodes_.getD e 0

/-- `valid_node_id`: range check for node handles (private helper declared in
the header; body modelled from the spec's "locally detectable via range
check"). -/
def valid_node_id (g : TimingGraph) (node_id : Nat) : Bool :=
  node_id < g.numNodes

/-- `valid_edge_id`: range check for edge handles. -/
def valid_edge_id (g : TimingGraph) (edge_id : Nat) : Bool :=
  edge_id < g.numEdges

/-- `valid_level_id`: range check for level handles. -/
def valid_level_id (g : TimingGraph) (level_id : Nat) : Bool :=
  level_id < g.level_nodes_.length

/-- `node_type(id)`; returns `node_types_[id]`.  Modelled from the spec: the
out-of-range behaviour of `linear_map` indexing is surfaced as
`InvalidHandle` (§7). -/
def node_type (g : TimingGraph) (id : Nat) : Except TgError TN_Type :=
  if g.valid_node_id id then .ok (g.node_types_.getD id default)
  else .error .InvalidHandle

/-- `node_clock_domain(id)`; returns `node_clock_domains_[id]`. -/
def node_clock_domain (g : TimingGraph) (id : Nat) : Except TgError Nat :=
  if g.valid_node_id id then .ok (g.node_clock_domains_.getD id 0)
  else .error .InvalidHandle

/-- `node_is_clock_source(id)`; returns `node_is_clock_source_[id]`. -/
def node_is_clock_source (g : TimingGraph) (id : Nat) : Except TgError Bool :=
  if g.valid_node_id id then .ok (g.node_is_clock_source_.getD id false)
  else .error .InvalidHandle

/-- `node_out_edges(id)`: the range over `node_out_edges_[id]`. -/
def node_out_edges (g : TimingGraph) (id : Nat) : Except TgError (List Nat) :=
  if g.valid_node_id id then .ok (g.outD id)
  else .error .InvalidHandle

/-- `node_in_edges(id)`: the range over `node_in_edges_[id]`. -/
def node_in_edges (g : TimingGraph) (id : Nat) : Except TgError (List Nat) :=
  if g.valid_node_id id then .ok (g.inD id)
  else .error .InvalidHandle

/-- `edge_sink_node(id)`; returns `edge_sink_nodes_[id]`. -/
def edge_sink_node (g : TimingGraph) (id : Nat) : Except TgError Nat :=
  if g.valid_edge_id id then .ok (g.sinkD id)
  else .error .InvalidHandle

/-- `edge_src_node(id)`; returns `edge_src_nodes_[id]`. -/
def edge_src_node (g : TimingGraph) (id : Nat) : Except TgError Nat :=
  if g.valid_edge_id id then .ok (g.srcD id)
  else .error .InvalidHandle

/-- `level_nodes(level_id)`: the range over `level_nodes_[level_id]`.
Modelled from the spec: level-dependent accessors invoked before a successful
`levelize()` fail with `GraphNotLevelized` (§7). -/
def level_nodes (g : TimingGraph) (level_id : Nat) : Except TgError (List Nat) :=
  if g.levelized_ = false then .error .GraphNotLevelized
  else if g.valid_level_id level_id then .ok (g.level_nodes_.getD level_id [])
  else .error .InvalidHandle

/-- `primary_inputs()`: the range over `level_nodes_[LevelId(0)]` ("after
levelizing PIs will be 1st level").  Modelled from the spec for the
not-levelized case (`GraphNotLevelized`). -/
def primary_inputs (g : TimingGraph) : Except TgError (List Nat) :=
  if g.levelized_ = false then .error .GraphNotLevelized
  else .ok (g.level_nodes_.getD 0 [])

/-- `primary_outputs()`: the range over `primary_outputs_`. -/
def primary_outputs (g : TimingGraph) : Except TgError (List Nat) :=
  if g.levelized_ = false then .error .GraphNotLevelized
  else .ok g.primary_outputs_

/-- `nodes()`: the range over `node_ids_`. -/
def nodes (g : TimingGraph) : List Nat := g.node_ids_

/-- `edges()`: the range over `edge_ids_`. -/
def edges (g : TimingGraph) : List Nat := g.edge_ids_

/-- `levels()`: the range over `level_ids_`. -/
def levels (g : TimingGraph) : List Nat := g.level_ids_

/-- `reversed_levels()`: the range `[level_ids_.rbegin(), level_ids_.rend())`.
A reverse iterator visits, at step `i`, the element at position
`size - 1 - i`; the produced sequence is embedded accordingly. -/
def reversed_levels (g : TimingGraph) : List Nat :=
  (List.range g.level_ids_.length).map
    (fun i => g.level_ids_.getD (g.level_ids_.length - 1 - i) 0)

/-- The graph default-constructed state: every SoA array empty. -/
def emptyTimingGraph : TimingGraph :=
  { node_ids_ := [], node_types_ := [], node_clock_domains_ := [],
    node_out_edges_ := [], node_in_edges_ := [], node_is_clock_source_ := [],
    edge_ids_ := [], edge_sink_nodes_ := [], edge_src_nodes_ := [],
    level_ids_ := [], level_nodes_ := [], primary_outputs_ := [],
    levelized_ := false }

/-- `add_node(type, clock_domain, is_clk_src)`.  Modelled from the spec: the
body is not under `src/`; per §4.1 it appends a new node with empty adjacency
lists and returns a fresh, previously-unused `NodeId`; a structural mutation
invalidates any previous levelization (§3 lifecycle). -/
def add_node (g : TimingGraph) (type : TN_Type) (clock_domain : Nat)
    (is_clk_src : Bool) : TimingGraph × Nat :=
  let id := g.numNodes
  ({ g with
      node_ids_ := g.node_ids_ ++ [id],
      node_types_ := g.node_types_ ++ [type],
      node_clock_domains_ := g.node_clock_domains_ ++ [clock_domain],
      node_out_edges_ := g.node_out_edges_ ++ [[]],
      node_in_edges_ := g.node_in_edges_ ++ [[]],
      node_is_clock_source_ := g.node_is_clock_source_ ++ [is_clk_src],
      levelized_ := false }, id)

/-- `add_edge(src_node, sink_node)`.  Modelled from the spec: the body is not
under `src/`; per §4.1 it requires both endpoints to be valid existing
`NodeId`s (`InvalidNodeReference` otherwise), appends the edge, updates both
adjacency lists, and returns a fresh `EdgeId`. -/
def add_edge (g : TimingGraph) (src_node : Nat) (sink_node : Nat) :
    Except TgError (TimingGraph × Nat) :=
  if g.valid_node_id src_node && g.valid_node_id sink_node then
    let eid := g.numEdges
    .ok ({ g with
        edge_ids_ := g.edge_ids_ ++ [eid],
        edge_src_nodes_ := g.edge_src_nodes_ ++ [src_node],
        edge_sink_nodes_ := g.edge_sink_nodes_ ++ [sink_node],
        node_out_edges_ := g.node_out_edges_.set src_node (g.outD src_node ++ [eid]),
        node_in_edges_ := g.node_in_edges_.set sink_node (g.inD sink_node ++ [eid]),
        levelized_ := false }, eid)
  else .error .InvalidNodeReference

/-!
## Levelizer

Modelled from the spec (§4.2): the `levelize()` body is not under `src/`.
The algorithm is a breadth-first topological sort: seed a frontier with the
zero-in-degree nodes in creation order; processing a frontier walks its nodes
in order and each node's out-edges in order, decrementing each sink's pending
in-edge count; a sink whose count reaches zero joins the next frontier in
release order.  Nodes never released witness a cycle (`CyclicGraphError`).
-/

/-- One pending-count decrement for the sink `s` of one traversed out-edge:
appends `s` to the released list when its pending count reaches zero. -/
def stepF (acc : List Nat × List Nat) (s : Nat) : List Nat × List Nat :=
  let cnt := acc.2.getD s 0
  ((if cnt = 1 then acc.1 ++ [s] else acc.1), acc.2.set s (cnt - 1))

/-- The sequence of sinks hit while processing a frontier: each frontier node
in order, each of its out-edges in order. -/
def dsList (g : TimingGraph) (frontier : List Nat) : List Nat :=
  ((frontier.map (fun n => g.outD n)).flatten).map (fun e => g.sinkD e)

/-- Process one frontier: returns (next frontier in release order, updated
pending counts). -/
def levelStep (g : TimingGraph) (frontier : List Nat) (pending : List Nat) :
    List Nat × List Nat :=
  (dsList g frontier).foldl stepF ([], pending)

/-- The frontier loop: records each processed (non-empty) frontier as a
level, in order.  `fuel` bounds the iteration count; `numNodes + 1` is always
sufficient since every recorded frontier is non-empty and frontiers are
disjoint. -/
def levelizeLoop (g : TimingGraph) :
    Nat → List Nat → List Nat → List (List Nat) → List (List Nat)
  | 0, _, _, acc => acc
  | fuel + 1, frontier, pending, acc =>
    if frontier.isEmpty then acc
    else
      let fp := levelStep g frontier pending
      levelizeLoop g fuel fp.1 fp.2 (acc ++ [frontier])

/-- Initial pending in-edge counts, one per node: the node's in-degree. -/
def pending0 (g : TimingGraph) : List Nat :=
  (List.range g.numNodes).map (fun n => (g.inD n).length)

/-- Initial frontier: the zero-in-degree nodes, in creation order. -/
def frontier0 (g : TimingGraph) : List Nat :=
  (List.range g.numNodes).filter (fun n => (g.inD n).length == 0)

/-- The level sequence computed by the frontier loop. -/
def levelsOf (g : TimingGraph) : List (List Nat) :=
  levelizeLoop g (g.numNodes + 1) (g.frontier0) (g.pending0) []

/-- The nodes never released into any frontier (witnesses of a cycle). -/
def unresolvedOf (g : TimingGraph) : List Nat :=
  (List.range g.numNodes).filter
    (fun n => !((g.levelsOf).any (fun lvl => lvl.contains n)))

/-- `levelize()`.  Modelled from the spec (§4.2): assigns every node a level
via the frontier loop, identifies the primary outputs (zero-out-degree nodes,
found by scanning all nodes), and fails with `CyclicGraphError` naming an
unresolved node when some node is never released; on failure no level data is
published. -/
def levelize (g : TimingGraph) : Except TgError TimingGraph :=
  match g.unresolvedOf with
  | [] => .ok { g with
      level_ids_ := List.range (g.levelsOf).length,
      level_nodes_ := g.levelsOf,
      primary_outputs_ :=
        (List.range g.numNodes).filter (fun n => (g.outD n).isEmpty),
      levelized_ := true }
  | w :: _ => .error (.CyclicGraphError w)

/-!
## Layout optimization

Modelled from the spec (§4.3): the bodies are not under `src/`.
-/

/-- `optimize_node_layout()`.  Modelled from the spec: requires a levelized
graph (`GraphNotLevelized` otherwise); assigns new sequential `NodeId`s in
level order (level 0's nodes in their within-level order, then level 1's,
and so on); rewrites every node-indexed array, every edge's src/sink
reference, and the level-to-node lists; returns the old-to-new translation
table. -/
def optimize_node_layout (g : TimingGraph) :
    Except TgError (TimingGraph × List Nat) :=
  if g.levelized_ = false then .error .GraphNotLevelized
  else
    let order := g.level_nodes_.flatten
    let o2n := (List.range g.numNodes).map (fun n => order.indexOf n)
    .ok ({ g with
        node_ids_ := List.range g.numNodes,
        node_types_ := order.map (fun n => g.node_types_.getD n default),
        node_clock_domains_ := order.map (fun n => g.node_clock_domains_.getD n 0),
        node_out_edges_ := order.map (fun n => g.outD n),
        node_in_edges_ := order.map (fun n => g.inD n),
        node_is_clock_source_ :=
          order.map (fun n => g.node_is_clock_source_.getD n false),
        edge_src_nodes_ := g.edge_src_nodes_.map (fun n => o2n.getD n 0),
        edge_sink_nodes_ := g.edge_sink_nodes_.map (fun n => o2n.getD n 0),
        level_nodes_ := g.level_nodes_.map (fun lvl => lvl.map (fun n => o2n.getD n 0)),
        primary_outputs_ := g.primary_outputs_.map (fun n => o2n.getD n 0) },
      o2n)

/-- `optimize_edge_layout()`.  Modelled from the spec: requires a levelized
graph; assigns new sequential `EdgeId`s by walking levels in order, nodes
within each level in order, and each node's out-edge list in order; rewrites
the edge-indexed arrays and every node's out/in-edge lists; returns the
old-to-new translation table. -/
def optimize_edge_layout (g : TimingGraph) :
    Except TgError (TimingGraph × List Nat) :=
  if g.levelized_ = false then .error .GraphNotLevelized
  else
    let eorder := ((g.level_nodes_.flatten).map (fun n => g.outD n)).flatten
    let o2n := (List.range g.numEdges).map (fun e => eorder.indexOf e)
    .ok ({ g with
        edge_ids_ := List.range g.numEdges,
        edge_src_nodes_ := eorder.map (fun e => g.srcD e),
        edge_sink_nodes_ := eorder.map (fun e => g.sinkD e),
        node_out_edges_ :=
          g.node_out_edges_.map (fun l => l.map (fun e => o2n.getD e 0)),
        node_in_edges_ :=
          g.node_in_edges_.map (fun l => l.map (fun e => o2n.getD e 0)) },
      o2n)

/-!
## Specification-level notions

Structural well-formedness of the SoA state, edge relations, and cycle /
level notions used by the stated properties.
-/

/-- All SoA arrays are parallel: node-indexed arrays have `numNodes` entries,
edge-indexed arrays have `numEdges` entries, and the id arrays are the dense
ranges the spec requires. -/
abbrev WFlen (g : TimingGraph) : Prop :=
  g.node_ids_ = List.range g.numNodes ∧
  g.node_types_.length = g.numNodes ∧
  g.node_clock_domains_.length = g.numNodes ∧
  g.node_out_edges_.length = g.numNodes ∧
  g.node_in_edges_.length = g.numNodes ∧
  g.node_is_clock_source_.length = g.numNodes ∧
  g.edge_ids_ = List.range g.numEdges ∧
  g.edge_src_nodes_.length = g.numEdges ∧
  g.edge_sink_nodes_.length = g.numEdges ∧
  g.level_ids_ = List.range g.level_nodes_.length

/-- Every edge's endpoints are valid node ids. -/
abbrev EdgeRange (g : TimingGraph) : Prop :=
  ∀ e ∈ List.range g.numEdges, g.srcD e < g.numNodes ∧ g.sinkD e < g.numNodes

/-- Every entry of an adjacency list is a valid edge id incident to that
node on the right side. -/
abbrev AdjValid (g : TimingGraph) : Prop :=
  ∀ n ∈ List.range g.numNodes,
    (∀ e ∈ g.outD n, e < g.numEdges ∧ g.srcD e = n) ∧
    (∀ e ∈ g.inD n, e < g.numEdges ∧ g.sinkD e = n)

/-- Bidirectional adjacency consistency (§3, §8 of the specification): every
edge appears exactly once in its source's out-edge list and exactly once in
its sink's in-edge list, and in no other node's adjacency list. -/
abbrev BidirConsistent (g : TimingGraph) : Prop :=
  ∀ e ∈ List.range g.numEdges,
    (g.outD (g.srcD e)).count e = 1 ∧
    (g.inD (g.sinkD e)).count e = 1 ∧
    (∀ n ∈ List.range g.numNodes, n ≠ g.srcD e → (g.outD n).count e = 0) ∧
    (∀ n ∈ List.range g.numNodes, n ≠ g.sinkD e → (g.inD n).count e = 0)

/-- The published level data lists every node exactly once. -/
abbrev LevelsGood (g : TimingGraph) : Prop :=
  g.level_nodes_.flatten.Nodup ∧
  (∀ n ∈ g.level_nodes_.flatten, n < g.numNodes) ∧
  (∀ n ∈ List.range g.numNodes, n ∈ g.level_nodes_.flatten)

/-- The well-formedness invariant of a `TimingGraph` value: parallel SoA
arrays, in-range edge endpoints, valid adjacency entries, bidirectional
consistency, and (once levelized) complete level data. -/
abbrev Inv (g : TimingGraph) : Prop :=
  WFlen g ∧ EdgeRange g ∧ AdjValid g ∧ BidirConsistent g ∧
  (g.levelized_ = true → LevelsGood g)

/-- There is an edge from `u` to `v`. -/
abbrev hasEdge (g : TimingGraph) (u v : Nat) : Prop :=
  ∃ e ∈ List.range g.numEdges, g.srcD e = u ∧ g.sinkD e = v

/-- The graph contains a directed cycle: a non-empty edge path from some
node back to itself. -/
def HasCycle (g : TimingGraph) : Prop :=
  ∃ n l, List.Chain g.hasEdge n (l ++ [n])

/-- The level index a node was assigned to by `levelize()` (the unique level
whose node list contains it). -/
def levelOf (g : TimingGraph) (n : Nat) : Nat :=
  g.level_nodes_.findIdx (fun lvl => lvl.contains n)

/-- Proof-internal counter: the edges into `n` whose source has not been
processed yet (`P` is the flattened list of already-processed levels). -/
def pendList (g : TimingGraph) (P : List Nat) (n : Nat) : List Nat :=
  (List.range g.numEdges).filter
    (fun e => decide (g.sinkD e = n ∧ g.srcD e ∉ P))

/-- Proof-internal counter: the edges into `n` whose source lies in the
frontier `F`. -/
def fromList (g : TimingGraph) (F : List Nat) (n : Nat) : List Nat :=
  (List.range g.numEdges).filter
    (fun e => decide (g.sinkD e = n ∧ g.srcD e ∈ F))

/-- The inductive invariant of the frontier loop: `f` is the frontier about
to be processed, `p` the pending counts, `acc` the levels recorded so far. -/
structure LoopInv (g : TimingGraph) (f p : List Nat) (acc : List (List Nat)) :
    Prop where
  hlen : p.length = g.numNodes
  hnodup : (acc.flatten ++ f).Nodup
  hrange : ∀ n ∈ acc.flatten ++ f, n < g.numNodes
  hpend : ∀ n, n < g.numNodes → p.getD n 0 = (g.pendList acc.flatten n).length
  hfront : ∀ n ∈ f, ∀ e, e < g.numEdges → g.sinkD e = n →
    g.srcD e ∈ acc.flatten
  hacc : ∀ k, (hk : k < acc.length) → ∀ n ∈ acc.get ⟨k, hk⟩,
    ∀ e, e < g.numEdges → g.sinkD e = n → g.srcD e ∈ (acc.take k).flatten
  hzero : ∀ n, n < g.numNodes → p.getD n 0 = 0 → n ∈ acc.flatten ++ f

/-- The correctness properties of a recorded level sequence `L`: no node is
recorded twice, all recorded nodes are valid, and every in-edge of a node
recorded at level `k` originates strictly earlier than `k`. -/
def GoodLevels (g : TimingGraph) (L : List (List Nat)) : Prop :=
  L.flatten.Nodup ∧
  (∀ n ∈ L.flatten, n < g.numNodes) ∧
  (∀ k, (hk : k < L.length) → ∀ n ∈ L.get ⟨k, hk⟩,
    ∀ e, e < g.numEdges → g.sinkD e = n → g.srcD e ∈ (L.take k).flatten)

/-!
## Concrete graphs used as evaluation witnesses
-/

/-- Build step: `add_node`, keeping only the graph. -/
def addNodeU (g : TimingGraph) (type : TN_Type) (clock_domain : Nat)
    (is_clk_src : Bool) : TimingGraph :=
  (g.add_node type clock_domain is_clk_src).1

/-- Build step: `add_edge`, keeping only the graph (unchanged on error). -/
def addEdgeU (g : TimingGraph) (src_node sink_node : Nat) : TimingGraph :=
  match g.add_edge src_node sink_node with
  | .ok p => p.1
  | .error _ => g

/-- The end-to-end scenario graph of §8: primary inputs `A = 0`, `B = 1`,
combinational node `C = 2` with edges `A→C`, `B→C`, primary output `D = 3`
with edge `C→D`. -/
def gDiamond : TimingGraph :=
  addEdgeU (addEdgeU (addEdgeU
    (addNodeU (addNodeU (addNodeU (addNodeU emptyTimingGraph
      .INPAD_SOURCE 0 false) .INPAD_SOURCE 0 false) .COMB_PIN 0 false)
      .OUTPAD_SINK 0 false)
    0 2) 1 2) 2 3

/-- The scenario graph after a successful `levelize()`. -/
def gDiamondL : TimingGraph :=
  match gDiamond.levelize with
  | .ok h => h
  | .error _ => gDiamond

/-- The scenario graph after node-layout optimization (graph and table). -/
def gDiamondN : TimingGraph × List Nat :=
  match gDiamondL.optimize_node_layout with
  | .ok p => p
  | .error _ => (gDiamondL, [])

/-- The scenario graph after edge-layout optimization (graph and table). -/
def gDiamondE : TimingGraph × List Nat :=
  match gDiamondL.optimize_edge_layout with
  | .ok p => p
  | .error _ => (gDiamondL, [])

/-- A two-node graph with the directed cycle `0 → 1 → 0`. -/
def gCyc : TimingGraph :=
  addEdgeU (addEdgeU
    (addNodeU (addNodeU emptyTimingGraph .COMB_PIN 0 false) .COMB_PIN 0 false)
    0 1) 1 0

/-!
## Generic list lemmas
-/

theorem getD_eq_getElem {α : Type} (l : List α) (d : α) {n : Nat}
    (h : n < l.length) : l.getD n d = l[n] := by
  simp [List.getD_eq_getElem?_getD, List.getElem?_eq_getElem h]

theorem getD_eq_default {α : Type} (l : List α) (d : α) {n : Nat}
    (h : l.length ≤ n) : l.getD n d = d := by
  simp [List.getD_eq_getElem?_getD, List.getElem?_eq_none h]

theorem getD_set_self {α : Type} (l : List α) (d v : α) {s : Nat}
    (h : s < l.length) : (l.set s v).getD s d = v := by
  simp [List.getD_eq_getElem?_getD, List.getElem?_set_self h]

theorem getD_set_ne {α : Type} (l : List α) (d v : α) {s n : Nat} (h : s ≠ n) :
    (l.set s v).getD n d = l.getD n d := by
  simp [List.getD_eq_getElem?_getD, List.getElem?_set_ne h]

theorem getD_map_range {α : Type} (f : Nat → α) (d : α) {m n : Nat}
    (h : n < m) : ((List.range m).map f).getD n d = f n := by
  rw [getD_eq_getElem _ _ (by simpa using h)]
  simp

theorem length_filter_split {α : Type} (l : List α) (p q : α → Bool) :
    (l.filter p).length =
      (l.filter (fun x => p x && q x)).length +
      (l.filter (fun x => p x && !q x)).length := by
  induction l with
  | nil => simp
  | cons a t ih =>
    by_cases hp : p a <;> by_cases hq : q a <;>
      simp [List.filter_cons, hp, hq, ih] <;> omega

theorem length_eq_of_mem_iff {α : Type} {l₁ l₂ : List α} (h₁ : l₁.Nodup)
    (h₂ : l₂.Nodup) (h : ∀ a, a ∈ l₁ ↔ a ∈ l₂) : l₁.length = l₂.length :=
  ((List.perm_ext_iff_of_nodup h₁ h₂).2 h).length_eq

/-!
## Characterization of the frontier-processing fold
-/

theorem stepF_def (r p : List Nat) (s : Nat) :
    stepF (r, p) s =
      ((if p.getD s 0 = 1 then r ++ [s] else r), p.set s (p.getD s 0 - 1)) :=
  rfl

theorem stepFold_snd_length (ds : List Nat) : ∀ r p : List Nat,
    ((ds.foldl stepF (r, p)).2).length = p.length := by
  induction ds with
  | nil => intro r p; rfl
  | cons s t ih =>
    intro r p
    rw [List.foldl_cons, stepF_def, ih]
    simp

theorem stepFold_snd_getD (ds : List Nat) : ∀ (r p : List Nat) (n : Nat),
    ((ds.foldl stepF (r, p)).2).getD n 0 = p.getD n 0 - ds.count n := by
  induction ds with
  | nil => simp
  | cons s t ih =>
    intro r p n
    rw [List.foldl_cons, stepF_def, ih]
    by_cases hns : n = s
    · subst hns
      by_cases hlt : n < p.length
      · rw [getD_set_self _ _ _ hlt, List.count_cons_self]
        omega
      · rw [List.set_eq_of_length_le (by omega)]
        rw [getD_eq_default _ _ (by omega)]
        simp
    · rw [getD_set_ne _ _ _ (fun hsn => hns hsn.symm),
        List.count_cons_of_ne hns]

theorem stepFold_fst_count (ds : List Nat) : ∀ (r p : List Nat) (n : Nat),
    ((ds.foldl stepF (r, p)).1).count n =
      r.count n +
        (if 1 ≤ p.getD n 0 ∧ p.getD n 0 ≤ ds.count n then 1 else 0) := by
  induction ds with
  | nil =>
    intro r p n
    simp only [List.foldl_nil, List.count_nil]
    split_ifs with h
    · omega
    · omega
  | cons s t ih =>
    intro r p n
    rw [List.foldl_cons, stepF_def, ih]
    by_cases hns : n = s
    · subst hns
      by_cases hlt : n < p.length
      · rw [getD_set_self _ _ _ hlt, List.count_cons_self]
        by_cases hc1 : p.getD n 0 = 1
        · rw [if_pos hc1, List.count_append, List.count_singleton_self]
          split_ifs <;> omega
        · rw [if_neg hc1]
          split_ifs <;> omega
      · rw [List.set_eq_of_length_le (by omega)]
        have h0 : p.getD n 0 = 0 := getD_eq_default _ _ (by omega)
        rw [h0]
        simp [h0]
    · rw [getD_set_ne _ _ _ (fun hsn => hns hsn.symm),
        List.count_cons_of_ne hns]
      by_cases hc1 : p.getD s 0 = 1
      · rw [if_pos hc1, List.count_append,
          List.count_singleton, if_neg (by simpa using fun h => hns h.symm)]
        omega
      · rw [if_neg hc1]

theorem stepFold_fst_mem (ds r p : List Nat) (n : Nat) :
    n ∈ (ds.foldl stepF (r, p)).1 ↔
      n ∈ r ∨ (1 ≤ p.getD n 0 ∧ p.getD n 0 ≤ ds.count n) := by
  rw [← List.count_pos_iff, ← List.count_pos_iff (a := n) (l := r),
    stepFold_fst_count]
  split_ifs with h
  · omega
  · omega

theorem stepFold_fst_nodup (ds p : List Nat) :
    ((ds.foldl stepF (([] : List Nat), p)).1).Nodup := by
  rw [List.nodup_iff_count_le_one]
  intro a
  rw [stepFold_fst_count, List.count_nil]
  split_ifs <;> omega

/-!
## Facts about well-formed adjacency
-/

theorem wflen_out_len {g : TimingGraph} (h : WFlen g) :
    g.node_out_edges_.length = g.numNodes := h.2.2.2.1

theorem wflen_in_len {g : TimingGraph} (h : WFlen g) :
    g.node_in_edges_.length = g.numNodes := h.2.2.2.2.1

theorem wflen_src_len {g : TimingGraph} (h : WFlen g) :
    g.edge_src_nodes_.length = g.numEdges := h.2.2.2.2.2.2.2.1

theorem wflen_sink_len {g : TimingGraph} (h : WFlen g) :
    g.edge_sink_nodes_.length = g.numEdges := h.2.2.2.2.2.2.2.2.1

theorem mem_outD_iff {g : TimingGraph} (hA : AdjValid g)
    (hB : BidirConsistent g) {n : Nat} (hn : n < g.numNodes) {e : Nat} :
    e ∈ g.outD n ↔ e < g.numEdges ∧ g.srcD e = n := by
  constructor
  · intro he
    exact (hA n (List.mem_range.mpr hn)).1 e he
  · rintro ⟨he, hsrc⟩
    have h1 := (hB e (List.mem_range.mpr he)).1
    rw [hsrc] at h1
    exact List.count_pos_iff.mp (by omega)

theorem mem_inD_iff {g : TimingGraph} (hA : AdjValid g)
    (hB : BidirConsistent g) {n : Nat} (hn : n < g.numNodes) {e : Nat} :
    e ∈ g.inD n ↔ e < g.numEdges ∧ g.sinkD e = n := by
  constructor
  · intro he
    exact (hA n (List.mem_range.mpr hn)).2 e he
  · rintro ⟨he, hsink⟩
    have h1 := (hB e (List.mem_range.mpr he)).2.1
    rw [hsink] at h1
    exact List.count_pos_iff.mp (by omega)

theorem outD_nodup {g : TimingGraph} (hA : AdjValid g)
    (hB : BidirConsistent g) {n : Nat} (hn : n < g.numNodes) :
    (g.outD n).Nodup := by
  rw [List.nodup_iff_count_le_one]
  intro e
  by_cases he : e ∈ g.outD n
  · obtain ⟨hE, hsrc⟩ := (mem_outD_iff hA hB hn).mp he
    have h1 := (hB e (List.mem_range.mpr hE)).1
    rw [hsrc] at h1
    omega
  · rw [List.count_eq_zero.mpr he]
    omega

theorem inD_nodup {g : TimingGraph} (hA : AdjValid g)
    (hB : BidirConsistent g) {n : Nat} (hn : n < g.numNodes) :
    (g.inD n).Nodup := by
  rw [List.nodup_iff_count_le_one]
  intro e
  by_cases he : e ∈ g.inD n
  · obtain ⟨hE, hsink⟩ := (mem_inD_iff hA hB hn).mp he
    have h1 := (hB e (List.mem_range.mpr hE)).2.1
    rw [hsink] at h1
    omega
  · rw [List.count_eq_zero.mpr he]
    omega

theorem mem_fromList {g : TimingGraph} {F : List Nat} {n e : Nat} :
    e ∈ g.fromList F n ↔
      e < g.numEdges ∧ g.sinkD e = n ∧ g.srcD e ∈ F := by
  simp [fromList, List.mem_filter, List.mem_range, and_assoc]

theorem mem_pendList {g : TimingGraph} {P : List Nat} {n e : Nat} :
    e ∈ g.pendList P n ↔
      e < g.numEdges ∧ g.sinkD e = n ∧ g.srcD e ∉ P := by
  simp [pendList, List.mem_filter, List.mem_range, and_assoc]

theorem pendList_nodup (g : TimingGraph) (P : List Nat) (n : Nat) :
    (g.pendList P n).Nodup :=
  (List.nodup_range _).filter _

theorem fromList_nodup (g : TimingGraph) (F : List Nat) (n : Nat) :
    (g.fromList F n).Nodup :=
  (List.nodup_range _).filter _

/-- Processing a frontier `f` of distinct valid nodes hits each node `n`
once per edge from `f` into `n`. -/
theorem dsList_count {g : TimingGraph} (hA : AdjValid g)
    (hB : BidirConsistent g) :
    ∀ f : List Nat, f.Nodup → (∀ m ∈ f, m < g.numNodes) → ∀ n,
      (dsList g f).count n = (g.fromList f n).length := by
  intro f
  induction f with
  | nil =>
    intro _ _ n
    simp [dsList, fromList]
  | cons m f' ih =>
    intro hnd hmem n
    have hm : m < g.numNodes := hmem m (by simp)
    have hmf' : m ∉ f' := (List.nodup_cons.mp hnd).1
    have hdsl : dsList g (m :: f') = (g.outD m).map g.sinkD ++ dsList g f' := by
      simp [dsList]
    rw [hdsl, List.count_append]
    have h1 : ((g.outD m).map g.sinkD).count n =
        ((List.range g.numEdges).filter
          (fun e => decide (g.sinkD e = n ∧ g.srcD e = m))).length := by
      rw [List.count_eq_countP, List.countP_map, List.countP_eq_length_filter]
      apply length_eq_of_mem_iff
      · exact (outD_nodup hA hB hm).filter _
      · exact (List.nodup_range _).filter _
      · intro e
        simp only [List.mem_filter, Function.comp, beq_iff_eq, List.mem_range,
          decide_eq_true_eq, mem_outD_iff hA hB hm]
        tauto
    have h2 : (g.fromList (m :: f') n).length =
        ((List.range g.numEdges).filter
          (fun e => decide (g.sinkD e = n ∧ g.srcD e = m))).length +
        (g.fromList f' n).length := by
      rw [fromList, length_filter_split _ _ (fun e => g.srcD e == m)]
      congr 1
      · apply congrArg List.length
        apply List.filter_congr
        intro e _
        rw [Bool.eq_iff_iff]
        simp only [Bool.and_eq_true, decide_eq_true_eq, beq_iff_eq,
          List.mem_cons]
        constructor
        · rintro ⟨⟨hs, _⟩, hsm⟩; exact ⟨hs, hsm⟩
        · rintro ⟨hs, hsm⟩; exact ⟨⟨hs, Or.inl hsm⟩, hsm⟩
      · apply congrArg List.length
        apply List.filter_congr
        intro e _
        rw [Bool.eq_iff_iff]
        simp only [Bool.and_eq_true, decide_eq_true_eq, List.mem_cons,
          Bool.not_eq_true', beq_eq_false_iff_ne, ne_eq]
        constructor
        · rintro ⟨⟨hs, hor⟩, hne⟩
          rcases hor with h | h
          · exact absurd h hne
          · exact ⟨hs, h⟩
        · rintro ⟨hs, hf⟩
          exact ⟨⟨hs, Or.inr hf⟩, fun hem => hmf' (hem ▸ hf)⟩
    rw [h1, h2, ih hnd.of_cons (fun x hx => hmem x (by simp [hx])) n]

/-- Splitting pending edges of `n` by whether their source lies in the
disjoint frontier `f`. -/
theorem pendList_split (g : TimingGraph) {P f : List Nat}
    (hdisj : ∀ m ∈ f, m ∉ P) (n : Nat) :
    (g.pendList P n).length =
      (g.fromList f n).length + (g.pendList (P ++ f) n).length := by
  rw [pendList, length_filter_split _ _ (fun e => decide (g.srcD e ∈ f))]
  congr 1
  · apply congrArg List.length
    apply List.filter_congr
    intro e _
    rw [Bool.eq_iff_iff]
    simp only [Bool.and_eq_true, decide_eq_true_eq]
    constructor
    · rintro ⟨⟨hs, _⟩, hf⟩; exact ⟨hs, hf⟩
    · rintro ⟨hs, hf⟩; exact ⟨⟨hs, hdisj _ hf⟩, hf⟩
  · apply congrArg List.length
    apply List.filter_congr
    intro e _
    rw [Bool.eq_iff_iff]
    simp only [Bool.and_eq_true, decide_eq_true_eq, Bool.not_eq_true',
      decide_eq_false_iff_not, List.mem_append]
    tauto

theorem take_append_le {α : Type} (l₁ l₂ : List α) {k : Nat}
    (h : k ≤ l₁.length) : (l₁ ++ l₂).take k = l₁.take k := by
  induction l₁ generalizing k with
  | nil =>
    have hk : k = 0 := by simpa using h
    simp [hk]
  | cons a t ih =>
    cases k with
    | zero => simp
    | succ k' =>
      simp only [List.cons_append, List.take_succ_cons]
      rw [ih (by simpa using h)]

theorem flatten_take_subset {α : Type} (L : List (List α)) (k : Nat) :
    (L.take k).flatten ⊆ L.flatten := by
  intro a ha
  obtain ⟨l, hl, ha'⟩ := List.mem_flatten.mp ha
  exact List.mem_flatten.mpr ⟨l, List.take_subset _ _ hl, ha'⟩

/-- Processing one frontier preserves the loop invariant, with the frontier
recorded as the next level. -/
theorem loopInv_step {g : TimingGraph} (hA : AdjValid g)
    (hB : BidirConsistent g) {f p : List Nat} {acc : List (List Nat)}
    (h : LoopInv g f p acc) :
    LoopInv g (levelStep g f p).1 (levelStep g f p).2 (acc ++ [f]) := by
  have hfnodup : f.Nodup := (List.nodup_append.mp h.hnodup).2.1
  have hPfdisj : acc.flatten.Disjoint f := (List.nodup_append.mp h.hnodup).2.2
  have hfmem : ∀ m ∈ f, m < g.numNodes := fun m hm =>
    h.hrange m (List.mem_append.mpr (Or.inr hm))
  have hdsc : ∀ n, (dsList g f).count n = (g.fromList f n).length :=
    dsList_count hA hB f hfnodup hfmem
  have hsplit : ∀ n, (g.pendList acc.flatten n).length =
      (g.fromList f n).length + (g.pendList (acc.flatten ++ f) n).length :=
    pendList_split g (fun m hm hmP => hPfdisj hmP hm)
  have hflat : (acc ++ [f]).flatten = acc.flatten ++ f := by simp
  have hmemf' : ∀ n, n ∈ (levelStep g f p).1 ↔
      1 ≤ p.getD n 0 ∧ p.getD n 0 ≤ (dsList g f).count n := by
    intro n
    rw [levelStep, stepFold_fst_mem]
    simp
  have hmemf'N : ∀ n ∈ (levelStep g f p).1, n < g.numNodes := by
    intro n hn
    rw [hmemf' n] at hn
    by_contra hge
    rw [getD_eq_default _ _ (by rw [h.hlen]; omega)] at hn
    omega
  have hkey : ∀ n, n < g.numNodes →
      (n ∈ (levelStep g f p).1 ↔
        1 ≤ (g.pendList acc.flatten n).length ∧
        (g.pendList (acc.flatten ++ f) n).length = 0) := by
    intro n hn
    rw [hmemf' n, h.hpend n hn, hdsc n, hsplit n]
    omega
  have hplaced : ∀ n ∈ acc.flatten ++ f,
      (g.pendList acc.flatten n).length = 0 := by
    intro n hn
    rw [List.length_eq_zero]
    by_contra hne
    obtain ⟨e, he⟩ := List.exists_mem_of_ne_nil _ hne
    obtain ⟨heE, hesink, hesrc⟩ := mem_pendList.mp he
    rcases List.mem_append.mp hn with hnP | hnf
    · obtain ⟨l, hl, hnl⟩ := List.mem_flatten.mp hnP
      obtain ⟨k, hk, hlk⟩ := List.getElem_of_mem hl
      have hsrcIn := h.hacc k hk n
        (by rw [List.get_eq_getElem, hlk]; exact hnl) e heE hesink
      exact hesrc (flatten_take_subset acc k hsrcIn)
    · exact hesrc (h.hfront n hnf e heE hesink)
  have hf'disj : ∀ n ∈ (levelStep g f p).1, n ∉ acc.flatten ++ f := by
    intro n hn hmem
    have hnN := hmemf'N n hn
    have h1 := (hkey n hnN).mp hn
    have h2 := hplaced n hmem
    omega
  have hf'nodup : (levelStep g f p).1.Nodup := by
    rw [levelStep]
    exact stepFold_fst_nodup _ _
  refine ⟨?_, ?_, ?_, ?_, ?_, ?_, ?_⟩
  · -- hlen
    rw [levelStep, stepFold_snd_length]
    exact h.hlen
  · -- hnodup
    rw [hflat]
    exact List.nodup_append.mpr
      ⟨h.hnodup, hf'nodup, fun a haPf haf' => hf'disj a haf' haPf⟩
  · -- hrange
    intro n hn
    rw [hflat] at hn
    rcases List.mem_append.mp hn with hn1 | hn2
    · exact h.hrange n hn1
    · exact hmemf'N n hn2
  · -- hpend
    intro n hn
    rw [levelStep, stepFold_snd_getD, hflat]
    have := h.hpend n hn
    have := hdsc n
    have := hsplit n
    omega
  · -- hfront
    intro n hn e heE hesink
    rw [hflat]
    have hnN := hmemf'N n hn
    have hzero2 := ((hkey n hnN).mp hn).2
    by_contra hnsrc
    have hmem : e ∈ g.pendList (acc.flatten ++ f) n :=
      mem_pendList.mpr ⟨heE, hesink, hnsrc⟩
    rw [List.length_eq_zero.mp hzero2] at hmem
    simp at hmem
  · -- hacc
    intro k hk n hn e heE hesink
    have hklen : k < acc.length + 1 := by simpa using hk
    by_cases hklt : k < acc.length
    · have hget : (acc ++ [f]).get ⟨k, hk⟩ = acc.get ⟨k, hklt⟩ := by
        simp only [List.get_eq_getElem]
        exact List.getElem_append_left hklt
      have htake : (acc ++ [f]).take k = acc.take k :=
        take_append_le _ _ (by omega)
      rw [hget] at hn
      rw [htake]
      exact h.hacc k hklt n hn e heE hesink
    · have hkeq : k = acc.length := by omega
      subst hkeq
      have hget : (acc ++ [f]).get ⟨acc.length, hk⟩ = f := by
        simp
      have htake : (acc ++ [f]).take acc.length = acc := List.take_left _ _
      rw [hget] at hn
      rw [htake]
      exact h.hfront n hn e heE hesink
  · -- hzero
    intro n hn h0
    rw [levelStep, stepFold_snd_getD] at h0
    rw [hflat]
    have hp := h.hpend n hn
    have hd := hdsc n
    have hs := hsplit n
    by_cases hcase : (g.pendList acc.flatten n).length = 0
    · have : p.getD n 0 = 0 := by omega
      exact List.mem_append.mpr
        (Or.inl (h.hzero n hn this))
    · have : n ∈ (levelStep g f p).1 :=
        (hkey n hn).mpr ⟨by omega, by omega⟩
      exact List.mem_append.mpr (Or.inr this)

/-- The loop invariant holds when `levelize()` seeds the frontier with the
zero-in-degree nodes in creation order. -/
theorem loopInv_init {g : TimingGraph} (hA : AdjValid g)
    (hB : BidirConsistent g) : LoopInv g g.frontier0 g.pending0 [] := by
  refine ⟨?_, ?_, ?_, ?_, ?_, ?_, ?_⟩
  · -- hlen
    simp [pending0]
  · -- hnodup
    simpa [frontier0] using (List.nodup_range g.numNodes).filter _
  · -- hrange
    intro n hn
    simp only [List.flatten_nil, List.nil_append, frontier0] at hn
    exact List.mem_range.mp (List.mem_of_mem_filter hn)
  · -- hpend
    intro n hn
    rw [pending0, getD_map_range _ _ hn]
    apply length_eq_of_mem_iff (inD_nodup hA hB hn) (pendList_nodup g _ n)
    intro e
    rw [mem_inD_iff hA hB hn, mem_pendList]
    simp
  · -- hfront
    intro n hnf e he hsink
    exfalso
    have hn : n < g.numNodes := by
      simp only [frontier0, List.mem_filter, List.mem_range] at hnf
      exact hnf.1
    have hlen0 : (g.inD n).length = 0 := by
      simp only [frontier0, List.mem_filter] at hnf
      simpa using hnf.2
    have hmem : e ∈ g.inD n := (mem_inD_iff hA hB hn).mpr ⟨he, hsink⟩
    rw [List.length_eq_zero.mp hlen0] at hmem
    simp at hmem
  · -- hacc
    intro k hk
    simp at hk
  · -- hzero
    intro n hn h0
    rw [pending0, getD_map_range _ _ hn] at h0
    simp only [List.flatten_nil, List.nil_append, frontier0]
    exact List.mem_filter.mpr ⟨List.mem_range.mpr hn, by simpa using h0⟩

/-- The loop only ever appends to the accumulated level list. -/
theorem levelizeLoop_prefix (g : TimingGraph) :
    ∀ (fuel : Nat) (f p : List Nat) (acc : List (List Nat)),
      ∃ rest, levelizeLoop g fuel f p acc = acc ++ rest := by
  intro fuel
  induction fuel with
  | zero =>
    intro f p acc
    exact ⟨[], by simp [levelizeLoop]⟩
  | succ fu ih =>
    intro f p acc
    rw [levelizeLoop]
    cases hfe : f.isEmpty
    · simp only [Bool.false_eq_true, if_false]
      obtain ⟨rest, hrest⟩ :=
        ih (levelStep g f p).1 (levelStep g f p).2 (acc ++ [f])
      exact ⟨[f] ++ rest, by rw [hrest, List.append_assoc]⟩
    · simp only [if_true]
      exact ⟨[], by simp⟩

/-- The loop invariant at any state already certifies the recorded levels. -/
theorem loopInv_final {g : TimingGraph} {f p : List Nat}
    {acc : List (List Nat)} (h : LoopInv g f p acc) : GoodLevels g acc :=
  ⟨(List.nodup_append.mp h.hnodup).1,
    fun n hn => h.hrange n (List.mem_append.mpr (Or.inl hn)),
    h.hacc⟩

/-- Any run of the frontier loop from an invariant state records correct
levels. -/
theorem levelizeLoop_good {g : TimingGraph} (hA : AdjValid g)
    (hB : BidirConsistent g) :
    ∀ (fuel : Nat) (f p : List Nat) (acc : List (List Nat)),
      LoopInv g f p acc →
      GoodLevels g (levelizeLoop g fuel f p acc) := by
  intro fuel
  induction fuel with
  | zero =>
    intro f p acc h
    simpa only [levelizeLoop] using loopInv_final h
  | succ fu ih =>
    intro f p acc h
    rw [levelizeLoop]
    cases hfe : f.isEmpty
    · simp only [Bool.false_eq_true, if_false]
      exact ih _ _ _ (loopInv_step hA hB h)
    · simp only [if_true]
      exact loopInv_final h

/-- The level sequence computed by `levelize()` is correct. -/
theorem levelsOf_good {g : TimingGraph} (hA : AdjValid g)
    (hB : BidirConsistent g) : GoodLevels g g.levelsOf :=
  levelizeLoop_good hA hB _ _ _ _ (loopInv_init hA hB)

/-!
## The outcome of `levelize()`
-/

/-- Inversion of a successful `levelize()`: every node was released and the
result is the record update publishing the computed levels. -/
theorem levelize_ok_shape {g g' : TimingGraph} (hok : g.levelize = .ok g') :
    g.unresolvedOf = [] ∧
    g' = { g with
      level_ids_ := List.range (g.levelsOf).length,
      level_nodes_ := g.levelsOf,
      primary_outputs_ :=
        (List.range g.numNodes).filter (fun n => (g.outD n).isEmpty),
      levelized_ := true } := by
  unfold levelize at hok
  cases hu : g.unresolvedOf with
  | nil =>
    rw [hu] at hok
    simp only [Except.ok.injEq] at hok
    exact ⟨rfl, hok.symm⟩
  | cons w rest =>
    rw [hu] at hok
    simp at hok

/-- All nodes were released into the recorded levels iff the unresolved list
is empty. -/
theorem unresolvedOf_nil_iff {g : TimingGraph} :
    g.unresolvedOf = [] ↔
      ∀ n, n < g.numNodes → n ∈ (g.levelsOf).flatten := by
  rw [unresolvedOf, List.filter_eq_nil_iff]
  constructor
  · intro h n hn
    have h1 := h n (List.mem_range.mpr hn)
    simp only [Bool.not_eq_true', Bool.not_eq_false, List.any_eq_true] at h1
    obtain ⟨lvl, hlvl, hc⟩ := h1
    exact List.mem_flatten.mpr ⟨lvl, hlvl, by simpa using hc⟩
  · intro h n hn
    have h1 := h n (List.mem_range.mp hn)
    obtain ⟨lvl, hlvl, hc⟩ := List.mem_flatten.mp h1
    simp only [Bool.not_eq_true', Bool.not_eq_false, List.any_eq_true]
    exact ⟨lvl, hlvl, by simpa using hc⟩

/-- In a duplicate-free level sequence, `findIdx` of containment recovers
the level index of any recorded node. -/
theorem findIdx_contains_eq {L : List (List Nat)} (hnd : L.flatten.Nodup) :
    ∀ {k : Nat} (hk : k < L.length) {n : Nat}, n ∈ L.get ⟨k, hk⟩ →
      L.findIdx (fun lvl => lvl.contains n) = k := by
  induction L with
  | nil =>
    intro k hk
    simp at hk
  | cons l L' ih =>
    intro k hk n hn
    have hnd' : (l ++ L'.flatten).Nodup := by simpa using hnd
    cases k with
    | zero =>
      have hnl : n ∈ l := by simpa using hn
      rw [List.findIdx_cons]
      have hc : l.contains n = true := by
        simpa [List.contains_eq_any_beq] using
          List.contains_iff_exists_mem_beq.mpr ⟨n, hnl, by simp⟩
      rw [hc]
      rfl
    | succ k' =>
      have hk' : k' < L'.length := by simpa using hk
      have hn' : n ∈ L'.get ⟨k', hk'⟩ := by simpa using hn
      have hnfl : n ∈ L'.flatten :=
        List.mem_flatten.mpr ⟨_, List.get_mem L' _ _, hn'⟩
      have hnl : n ∉ l :=
        fun hmem => (List.nodup_append.mp hnd').2.2 hmem hnfl
      rw [List.findIdx_cons]
      have hc : l.contains n = false := by
        rw [← Bool.not_eq_true]
        intro hcontra
        exact hnl (by
          obtain ⟨m, hm, hbeq⟩ := List.contains_iff_exists_mem_beq.mp hcontra
          rwa [show n = m from by simpa using hbeq])
      rw [hc]
      have h2 := ih (List.nodup_append.mp hnd').2.1 hk' hn'
      simp only [cond_false]
      omega

/-- Level strict monotonicity along every edge, for a correct and complete
level sequence. -/
theorem goodLevels_edge_lt {g : TimingGraph} {L : List (List Nat)}
    (hgood : GoodLevels g L) (hcomp : ∀ n, n < g.numNodes → n ∈ L.flatten)
    (hE : EdgeRange g) :
    ∀ e, e < g.numEdges →
      L.findIdx (fun lvl => lvl.contains (g.srcD e)) <
        L.findIdx (fun lvl => lvl.contains (g.sinkD e)) := by
  intro e he
  obtain ⟨hnd, _, hacc⟩ := hgood
  obtain ⟨hsrcN, hsinkN⟩ := hE e (List.mem_range.mpr he)
  have hsinkfl : g.sinkD e ∈ L.flatten := hcomp _ hsinkN
  obtain ⟨l, hl, hnl⟩ := List.mem_flatten.mp hsinkfl
  obtain ⟨kv, hkv, hlkv⟩ := List.getElem_of_mem hl
  have hsinkget : g.sinkD e ∈ L.get ⟨kv, hkv⟩ := by
    rw [List.get_eq_getElem, hlkv]; exact hnl
  have hsinkidx : L.findIdx (fun lvl => lvl.contains (g.sinkD e)) = kv :=
    findIdx_contains_eq hnd hkv hsinkget
  have hsrcin := hacc kv hkv (g.sinkD e) hsinkget e he rfl
  obtain ⟨l', hl', hsrc'⟩ := List.mem_flatten.mp hsrcin
  obtain ⟨j, hj, hlj⟩ := List.getElem_of_mem hl'
  have hjkv : j < kv := by
    have := hj
    rw [List.length_take] at this
    omega
  have hjL : j < L.length := by
    have := hj
    rw [List.length_take] at this
    omega
  have hLj : L[j] = l' := by
    rw [← hlj]
    simp
  have hsrcidx : L.findIdx (fun lvl => lvl.contains (g.srcD e)) = j :=
    findIdx_contains_eq hnd hjL (by rw [List.get_eq_getElem, hLj]; exact hsrc')
  omega

theorem goodLevels_count_one {g : TimingGraph} {L : List (List Nat)}
    (hgood : GoodLevels g L) (hcomp : ∀ n, n < g.numNodes → n ∈ L.flatten) :
    ∀ n, n < g.numNodes → L.flatten.count n = 1 := fun n hn =>
  List.count_eq_one_of_mem hgood.1 (hcomp n hn)

theorem goodLevels_length_sum {g : TimingGraph} {L : List (List Nat)}
    (hgood : GoodLevels g L) (hcomp : ∀ n, n < g.numNodes → n ∈ L.flatten) :
    (L.map List.length).sum = g.numNodes := by
  rw [← List.length_flatten]
  have h := length_eq_of_mem_iff hgood.1 (List.nodup_range g.numNodes)
    (fun a => ⟨fun ha => List.mem_range.mpr (hgood.2.1 a ha),
      fun ha => hcomp a (List.mem_range.mp ha)⟩)
  simpa using h

/-- Along a chain of related nodes, a measure strictly increasing across the
relation strictly increases from head to last. -/
theorem chain_measure_lt {R : Nat → Nat → Prop} {m : Nat → Nat}
    (hR : ∀ u v, R u v → m u < m v) :
    ∀ (l : List Nat) (hl : l ≠ []) (a : Nat), List.Chain R a l →
      m a < m (l.getLast hl) := by
  intro l
  induction l with
  | nil => intro hl; exact absurd rfl hl
  | cons b t ih =>
    intro hbl a hc
    rw [List.chain_cons] at hc
    by_cases ht : t = []
    · subst ht
      exact hR a b hc.1
    · rw [List.getLast_cons ht]
      exact lt_trans (hR a b hc.1) (ih ht b hc.2)

/-- Claim C1: after a successful `levelize()` on an acyclic (i.e. successfully
levelized) graph, every node is assigned to exactly one level (it occurs
exactly once across the level node lists); for every edge, the level of its
source node is strictly less than the level of its sink node; and the sum
over all levels of the number of nodes in that level equals the total node
count. -/
theorem claim_C1 {g g' : TimingGraph} (hInv : Inv g)
    (hok : g.levelize = .ok g') :
    (∀ n, n < g'.numNodes → g'.level_nodes_.flatten.count n = 1) ∧
    (∀ e, e < g'.numEdges →
      g'.levelOf (g'.srcD e) < g'.levelOf (g'.sinkD e)) ∧
    (g'.level_nodes_.map List.length).sum = g'.numNodes := by
  obtain ⟨hW, hE, hA, hB, _⟩ := hInv
  obtain ⟨hnil, hshape⟩ := levelize_ok_shape hok
  subst hshape
  have hcomp : ∀ n, n < g.numNodes → n ∈ g.levelsOf.flatten :=
    unresolvedOf_nil_iff.mp hnil
  have hgood := levelsOf_good hA hB
  refine ⟨?_, ?_, ?_⟩
  · intro n hn
    exact goodLevels_count_one hgood hcomp n hn
  · intro e he
    exact goodLevels_edge_lt hgood hcomp hE e he
  · exact goodLevels_length_sum hgood hcomp

theorem claim_C1_witness :
    Inv gDiamond ∧
      ((∀ n, n < gDiamondL.numNodes →
        gDiamondL.level_nodes_.flatten.count n = 1) ∧
      (∀ e, e < gDiamondL.numEdges →
        gDiamondL.levelOf (gDiamondL.srcD e) <
          gDiamondL.levelOf (gDiamondL.sinkD e)) ∧
      (gDiamondL.level_nodes_.map List.length).sum = gDiamondL.numNodes) :=
  ⟨by decide, claim_C1 (by decide : Inv gDiamond)
    (rfl : gDiamond.levelize = .ok gDiamondL)⟩

/-- Claim C4: for every well-formed graph containing a directed cycle,
`levelize()` fails with `CyclicGraphError` identifying an unresolved node of
the graph, and publishes no level data (the error carries no graph). -/
theorem claim_C4 {g : TimingGraph} (hInv : Inv g) (hcyc : HasCycle g) :
    ∃ w, g.levelize = .error (.CyclicGraphError w) ∧ w < g.numNodes := by
  obtain ⟨hW, hE, hA, hB, _⟩ := hInv
  cases hu : g.unresolvedOf with
  | nil =>
    exfalso
    have hcomp : ∀ n, n < g.numNodes → n ∈ g.levelsOf.flatten :=
      unresolvedOf_nil_iff.mp hu
    have hgood := levelsOf_good hA hB
    have hmono : ∀ u v, g.hasEdge u v →
        (g.levelsOf).findIdx (fun lvl => lvl.contains u) <
          (g.levelsOf).findIdx (fun lvl => lvl.contains v) := by
      rintro u v ⟨e, he, hsrc, hsink⟩
      rw [← hsrc, ← hsink]
      exact goodLevels_edge_lt hgood hcomp hE e (List.mem_range.mp he)
    obtain ⟨n, l, hchain⟩ := hcyc
    have h1 := chain_measure_lt hmono (l ++ [n])
      (by simp) n hchain
    rw [List.getLast_concat] at h1
    omega
  | cons w rest =>
    refine ⟨w, ?_, ?_⟩
    · unfold levelize
      rw [hu]
    · have hmem : w ∈ g.unresolvedOf := by
        rw [hu]; exact List.mem_cons_self _ _
      exact List.mem_range.mp (List.mem_of_mem_filter hmem)

theorem claim_C4_witness :
    Inv gCyc ∧ HasCycle gCyc ∧
      ∃ w, gCyc.levelize = .error (.CyclicGraphError w) ∧ w < gCyc.numNodes :=
  ⟨by decide, ⟨0, [1], .cons (by decide) (.cons (by decide) .nil)⟩,
    claim_C4 (by decide) ⟨0, [1], .cons (by decide) (.cons (by decide) .nil)⟩⟩

/-- The first recorded level is exactly the initial frontier (the
zero-in-degree nodes in creation order). -/
theorem levelsOf_head (g : TimingGraph) :
    (g.levelsOf).getD 0 [] = g.frontier0 := by
  rw [levelsOf, levelizeLoop]
  cases hfe : g.frontier0.isEmpty
  · simp only [Bool.false_eq_true, if_false]
    obtain ⟨rest, hrest⟩ := levelizeLoop_prefix g g.numNodes
      (levelStep g g.frontier0 g.pending0).1
      (levelStep g g.frontier0 g.pending0).2 ([] ++ [g.frontier0])
    rw [hrest]
    simp
  · simp only [if_true]
    have h1 : g.frontier0 = [] := List.isEmpty_iff.mp hfe
    simp [h1]

/-- Claim C3: after a successful `levelize()`, `primary_inputs()` returns
exactly the nodes whose in-edge lists are empty (in creation order), this
set is the nodes of level 0, and `primary_outputs()` returns exactly the
nodes whose out-edge lists are empty. -/
theorem claim_C3 {g g' : TimingGraph} (hok : g.levelize = .ok g') :
    g'.primary_inputs =
      .ok ((List.range g'.numNodes).filter (fun n => (g'.inD n).isEmpty)) ∧
    g'.primary_inputs = .ok (g'.level_nodes_.getD 0 []) ∧
    (0 < g'.numLevels → g'.level_nodes 0 = g'.primary_inputs) ∧
    g'.primary_outputs =
      .ok ((List.range g'.numNodes).filter (fun n => (g'.outD n).isEmpty)) := by
  obtain ⟨hnil, hshape⟩ := levelize_ok_shape hok
  subst hshape
  refine ⟨?_, ?_, ?_, ?_⟩
  · show Except.ok ((g.levelsOf).getD 0 []) = _
    rw [levelsOf_head]
    congr 1
    rw [frontier0]
    apply List.filter_congr
    intro n _
    rw [Bool.eq_iff_iff]
    simp only [beq_iff_eq, List.length_eq_zero, List.isEmpty_iff]
    exact Iff.rfl
  · rfl
  · intro hpos
    have hpos' : 0 < g.levelsOf.length := by
      simpa [numLevels] using hpos
    rw [level_nodes, if_neg (by simp), if_pos (by simp [valid_level_id]; exact hpos')]
    rfl
  · rfl

theorem claim_C3_witness :
    gDiamond.levelize = .ok gDiamondL ∧
      (gDiamondL.primary_inputs =
        .ok ((List.range gDiamondL.numNodes).filter
          (fun n => (gDiamondL.inD n).isEmpty)) ∧
      gDiamondL.primary_inputs = .ok (gDiamondL.level_nodes_.getD 0 []) ∧
      (0 < gDiamondL.numLevels →
        gDiamondL.level_nodes 0 = gDiamondL.primary_inputs) ∧
      gDiamondL.primary_outputs =
        .ok ((List.range gDiamondL.numNodes).filter
          (fun n => (gDiamondL.outD n).isEmpty))) :=
  ⟨rfl, claim_C3 (rfl : gDiamond.levelize = .ok gDiamondL)⟩

/-!
## Levelization depends only on the connectivity fields
-/

theorem levelStep_congr {g₁ g₂ : TimingGraph}
    (hout : g₂.node_out_edges_ = g₁.node_out_edges_)
    (hsink : g₂.edge_sink_nodes_ = g₁.edge_sink_nodes_) :
    ∀ f p, levelStep g₂ f p = levelStep g₁ f p := by
  have h1 : g₂.outD = g₁.outD := by
    funext n
    rw [outD, outD, hout]
  have h2 : g₂.sinkD = g₁.sinkD := by
    funext e
    rw [sinkD, sinkD, hsink]
  intro f p
  rw [levelStep, levelStep, dsList, dsList, h1, h2]

theorem levelizeLoop_congr {g₁ g₂ : TimingGraph}
    (hout : g₂.node_out_edges_ = g₁.node_out_edges_)
    (hsink : g₂.edge_sink_nodes_ = g₁.edge_sink_nodes_) :
    ∀ fuel f p acc,
      levelizeLoop g₂ fuel f p acc = levelizeLoop g₁ fuel f p acc := by
  intro fuel
  induction fuel with
  | zero =>
    intro f p acc
    rfl
  | succ fu ih =>
    intro f p acc
    rw [levelizeLoop, levelizeLoop, levelStep_congr hout hsink]
    cases hfe : f.isEmpty
    · simp only [Bool.false_eq_true, if_false]
      exact ih _ _ _
    · simp only [if_true]

theorem levelsOf_congr {g₁ g₂ : TimingGraph}
    (hids : g₂.node_ids_.length = g₁.node_ids_.length)
    (hin : g₂.node_in_edges_ = g₁.node_in_edges_)
    (hout : g₂.node_out_edges_ = g₁.node_out_edges_)
    (hsink : g₂.edge_sink_nodes_ = g₁.edge_sink_nodes_) :
    g₂.levelsOf = g₁.levelsOf := by
  have hN : g₂.numNodes = g₁.numNodes := hids
  have hinD : g₂.inD = g₁.inD := by
    funext n
    rw [inD, inD, hin]
  have hp : g₂.pending0 = g₁.pending0 := by
    rw [pending0, pending0, hN, hinD]
  have hf : g₂.frontier0 = g₁.frontier0 := by
    rw [frontier0, frontier0, hN, hinD]
  rw [levelsOf, levelsOf, hN, hp, hf, levelizeLoop_congr hout hsink]

theorem unresolvedOf_congr {g₁ g₂ : TimingGraph}
    (hids : g₂.node_ids_.length = g₁.node_ids_.length)
    (hin : g₂.node_in_edges_ = g₁.node_in_edges_)
    (hout : g₂.node_out_edges_ = g₁.node_out_edges_)
    (hsink : g₂.edge_sink_nodes_ = g₁.edge_sink_nodes_) :
    g₂.unresolvedOf = g₁.unresolvedOf := by
  have hN : g₂.numNodes = g₁.numNodes := hids
  rw [unresolvedOf, unresolvedOf, hN, levelsOf_congr hids hin hout hsink]

/-- Claim C9: `levelize()` is idempotent and deterministic: re-running it on
the unmodified result graph succeeds and returns the identical graph, so the
level assignments (including within-level order) and the primary-output
ordering are reproduced exactly.  (Determinism is inherent: the embedding of
`levelize()` is a function of the graph.) -/
theorem claim_C9 {g g' : TimingGraph} (hok : g.levelize = .ok g') :
    g'.levelize = .ok g' := by
  obtain ⟨hnil, hshape⟩ := levelize_ok_shape hok
  subst hshape
  have hlev : TimingGraph.levelsOf { g with
      level_ids_ := List.range (g.levelsOf).length,
      level_nodes_ := g.levelsOf,
      primary_outputs_ :=
        (List.range g.numNodes).filter (fun n => (g.outD n).isEmpty),
      levelized_ := true } = g.levelsOf :=
    levelsOf_congr rfl rfl rfl rfl
  have hunr : TimingGraph.unresolvedOf { g with
      level_ids_ := List.range (g.levelsOf).length,
      level_nodes_ := g.levelsOf,
      primary_outputs_ :=
        (List.range g.numNodes).filter (fun n => (g.outD n).isEmpty),
      levelized_ := true } = g.unresolvedOf :=
    unresolvedOf_congr rfl rfl rfl rfl
  unfold levelize
  rw [hunr, hnil]
  rw [hlev]
  rfl

theorem claim_C9_witness :
    gDiamond.levelize = .ok gDiamondL ∧ gDiamondL.levelize = .ok gDiamondL :=
  ⟨rfl, claim_C9 (rfl : gDiamond.levelize = .ok gDiamondL)⟩

/-- Reverse-iterator traversal of a list visits exactly its reversal. -/
theorem map_range_getD_reverse {α : Type} (l : List α) (d : α) :
    (List.range l.length).map (fun i => l.getD (l.length - 1 - i) d) =
      l.reverse := by
  apply List.ext_getElem
  · simp
  · intro i h1 h2
    have hi : i < l.length := by simpa using h2
    have hlt : l.length - 1 - i < l.length := by omega
    rw [List.getElem_map, List.getElem_range, getD_eq_getElem _ _ hlt,
      List.getElem_reverse]

/-- Claim C10: for every graph, `reversed_levels()` yields exactly the
sequence of level ids produced by `levels()`, in reverse order. -/
theorem claim_C10 (g : TimingGraph) :
    g.reversed_levels = (g.levels).reverse := by
  rw [reversed_levels, levels]
  exact map_range_getD_reverse _ _

/-- Claim C6: every node/edge data accessor fails with `InvalidHandle` when
given a handle outside the currently valid dense range (which is how a
default/unset or stale handle manifests), and succeeds inside the range:
the check is exactly a range check. -/
theorem claim_C6 (g : TimingGraph) :
    (∀ id, ¬ id < g.numNodes →
      g.node_type id = .error .InvalidHandle ∧
      g.node_clock_domain id = .error .InvalidHandle ∧
      g.node_is_clock_source id = .error .InvalidHandle ∧
      g.node_out_edges id = .error .InvalidHandle ∧
      g.node_in_edges id = .error .InvalidHandle) ∧
    (∀ id, ¬ id < g.numEdges →
      g.edge_src_node id = .error .InvalidHandle ∧
      g.edge_sink_node id = .error .InvalidHandle) ∧
    (∀ id, id < g.numNodes →
      (g.node_type id).isOk ∧ (g.node_clock_domain id).isOk ∧
      (g.node_is_clock_source id).isOk ∧ (g.node_out_edges id).isOk ∧
      (g.node_in_edges id).isOk) ∧
    (∀ id, id < g.numEdges →
      (g.edge_src_node id).isOk ∧ (g.edge_sink_node id).isOk) := by
  refine ⟨fun id h => ⟨?_, ?_, ?_, ?_, ?_⟩, fun id h => ⟨?_, ?_⟩,
      fun id h => ⟨?_, ?_, ?_, ?_, ?_⟩, fun id h => ⟨?_, ?_⟩⟩ <;>
    simp [node_type, node_clock_domain, node_is_clock_source,
      node_out_edges, node_in_edges, edge_src_node, edge_sink_node,
      valid_node_id, valid_edge_id, h, Except.isOk, Except.toBool]

theorem claim_C6_witness :
    (¬ 10 < gDiamond.numNodes) ∧ (0 : Nat) < gDiamond.numNodes ∧
      gDiamond.node_type 10 = .error .InvalidHandle ∧
      gDiamond.edge_src_node 10 = .error .InvalidHandle ∧
      (gDiamond.node_type 0).isOk :=
  ⟨by decide, by decide,
    ((claim_C6 gDiamond).1 10 (by decide)).1,
    ((claim_C6 gDiamond).2.1 10 (by decide)).1,
    ((claim_C6 gDiamond).2.2.1 0 (by decide)).1⟩

/-- Claim C7: the level-dependent operations `level_nodes`,
`primary_inputs`, `optimize_node_layout` and `optimize_edge_layout` fail
with `GraphNotLevelized` when the graph has not been (re-)levelized, for any
argument; the graph is not implicitly levelized (the operations return only
the error). -/
theorem claim_C7 (g : TimingGraph) (h : g.levelized_ = false) :
    (∀ level_id, g.level_nodes level_id = .error .GraphNotLevelized) ∧
    g.primary_inputs = .error .GraphNotLevelized ∧
    g.optimize_node_layout = .error .GraphNotLevelized ∧
    g.optimize_edge_layout = .error .GraphNotLevelized := by
  refine ⟨fun level_id => ?_, ?_, ?_, ?_⟩ <;>
    simp [level_nodes, primary_inputs, optimize_node_layout,
      optimize_edge_layout, h]

theorem claim_C7_witness :
    gDiamond.levelized_ = false ∧
      ((∀ level_id,
        gDiamond.level_nodes level_id = .error .GraphNotLevelized) ∧
      gDiamond.primary_inputs = .error .GraphNotLevelized ∧
      gDiamond.optimize_node_layout = .error .GraphNotLevelized ∧
      gDiamond.optimize_edge_layout = .error .GraphNotLevelized) :=
  ⟨rfl, claim_C7 gDiamond rfl⟩

/-- Claim C8: `add_edge` with a source or sink `NodeId` that is not a valid
existing node (never returned by `add_node`, i.e. outside the dense id
range) fails with `InvalidNodeReference` and adds no edge (the call returns
only the error, leaving the graph value untouched); with two valid
endpoints it appends the edge, updates both adjacency lists, and returns
the fresh `EdgeId`. -/
theorem claim_C8 (g : TimingGraph) (src_node sink_node : Nat) :
    (¬ (src_node < g.numNodes ∧ sink_node < g.numNodes) →
      g.add_edge src_node sink_node = .error .InvalidNodeReference) ∧
    (WFlen g → src_node < g.numNodes → sink_node < g.numNodes →
      ∃ g', g.add_edge src_node sink_node = .ok (g', g.numEdges) ∧
        g'.numEdges = g.numEdges + 1 ∧
        g'.outD src_node = g.outD src_node ++ [g.numEdges] ∧
        g'.inD sink_node = g.inD sink_node ++ [g.numEdges] ∧
        g'.srcD g.numEdges = src_node ∧
        g'.sinkD g.numEdges = sink_node) := by
  constructor
  · intro h
    rw [add_edge, if_neg]
    simp only [Bool.and_eq_true, valid_node_id, decide_eq_true_eq]
    exact h
  · intro hW hsrc hsink
    rw [add_edge, if_pos (by
      simp only [Bool.and_eq_true, valid_node_id, decide_eq_true_eq]
      exact ⟨hsrc, hsink⟩)]
    refine ⟨_, rfl, ?_, ?_, ?_, ?_, ?_⟩
    · simp [numEdges]
    · show (g.node_out_edges_.set src_node
        (g.outD src_node ++ [g.numEdges])).getD src_node [] = _
      exact getD_set_self _ _ _ (by rw [wflen_out_len hW]; exact hsrc)
    · show (g.node_in_edges_.set sink_node
        (g.inD sink_node ++ [g.numEdges])).getD sink_node [] = _
      exact getD_set_self _ _ _ (by rw [wflen_in_len hW]; exact hsink)
    · show (g.edge_src_nodes_ ++ [src_node]).getD g.numEdges 0 = src_node
      rw [getD_eq_getElem _ _ (by
        rw [List.length_append, wflen_src_len hW]
        simp)]
      exact List.getElem_concat_length _ _ _ (by rw [wflen_src_len hW]) _
    · show (g.edge_sink_nodes_ ++ [sink_node]).getD g.numEdges 0 = sink_node
      rw [getD_eq_getElem _ _ (by
        rw [List.length_append, wflen_sink_len hW]
        simp)]
      exact List.getElem_concat_length _ _ _ (by rw [wflen_sink_len hW]) _

theorem claim_C8_witness :
    (¬ ((0 : Nat) < gDiamond.numNodes ∧ 99 < gDiamond.numNodes) ∧
      gDiamond.add_edge 0 99 = .error .InvalidNodeReference) ∧
    (WFlen gDiamond ∧ (3 : Nat) < gDiamond.numNodes ∧
      (0 : Nat) < gDiamond.numNodes ∧
      ∃ g', gDiamond.add_edge 3 0 = .ok (g', gDiamond.numEdges) ∧
        g'.numEdges = gDiamond.numEdges + 1 ∧
        g'.outD 3 = gDiamond.outD 3 ++ [gDiamond.numEdges] ∧
        g'.inD 0 = gDiamond.inD 0 ++ [gDiamond.numEdges] ∧
        g'.srcD gDiamond.numEdges = 3 ∧
        g'.sinkD gDiamond.numEdges = 0) :=
  ⟨⟨by decide, (claim_C8 gDiamond 0 99).1 (by decide)⟩,
    by decide, by decide, by decide,
    (claim_C8 gDiamond 3 0).2 (by decide) (by decide) (by decide)⟩

/-!
## Relabeling tables built from a permutation order
-/

theorem getD_map_of_lt {α β : Type} (f : α → β) (l : List α) (d : α)
    (d' : β) {e : Nat} (h : e < l.length) :
    (l.map f).getD e d' = f (l.getD e d) := by
  rw [getD_eq_getElem _ _ (by simpa using h), getD_eq_getElem _ _ h,
    List.getElem_map]

theorem idx_lt_of_perm {order : List Nat} {N : Nat} (hlen : order.length = N)
    (hmem : ∀ n, n < N → n ∈ order) {n : Nat} (hn : n < N) :
    order.indexOf n < N :=
  hlen ▸ List.indexOf_lt_length.mpr (hmem n hn)

theorem idx_inj_of_perm {order : List Nat} {N : Nat}
    (hlen : order.length = N) (hmem : ∀ n, n < N → n ∈ order) {n₁ n₂ : Nat}
    (h1 : n₁ < N) (h2 : n₂ < N)
    (heq : order.indexOf n₁ = order.indexOf n₂) : n₁ = n₂ := by
  have hl1 : order.indexOf n₁ < order.length :=
    List.indexOf_lt_length.mpr (hmem n₁ h1)
  have hl2 : order.indexOf n₂ < order.length :=
    List.indexOf_lt_length.mpr (hmem n₂ h2)
  have o1 : order[order.indexOf n₁]? = some n₁ := by
    rw [List.getElem?_eq_getElem hl1, List.getElem_indexOf hl1]
  rw [heq] at o1
  rw [List.getElem?_eq_getElem hl2, List.getElem_indexOf hl2] at o1
  exact (Option.some_inj.mp o1).symm

/-- The old-to-new table induced by a permutation order is itself a
permutation of the dense range: right length, in-range values, no
duplicates, every value attained. -/
theorem table_of_perm {order : List Nat} {N : Nat} (hnd : order.Nodup)
    (hlen : order.length = N) (hmem : ∀ n, n < N → n ∈ order)
    (hmem' : ∀ n ∈ order, n < N) :
    ((List.range N).map (fun n => order.indexOf n)).length = N ∧
    (∀ v ∈ (List.range N).map (fun n => order.indexOf n), v < N) ∧
    ((List.range N).map (fun n => order.indexOf n)).Nodup ∧
    (∀ v, v < N → v ∈ (List.range N).map (fun n => order.indexOf n)) := by
  refine ⟨by simp, ?_, ?_, ?_⟩
  · intro v hv
    simp only [List.mem_map, List.mem_range] at hv
    obtain ⟨n, hn, hvn⟩ := hv
    rw [← hvn]
    exact idx_lt_of_perm hlen hmem hn
  · apply List.Nodup.map_on
    · intro x hx y hy hxy
      exact idx_inj_of_perm hlen hmem (List.mem_range.mp hx)
        (List.mem_range.mp hy) hxy
    · exact List.nodup_range N
  · intro v hv
    have hvo : v < order.length := by omega
    refine List.mem_map.mpr ⟨order[v], ?_, ?_⟩
    · exact List.mem_range.mpr (hmem' _ (order.getElem_mem hvo))
    · exact List.indexOf_getElem hnd v hvo

/-- Claim C5: on a levelized well-formed graph, `optimize_node_layout()`
returns a bijective old-to-new map over all node ids and is a pure
relabeling: old ids are connected by an edge exactly when their translated
ids are connected afterwards, and the graph's own edge endpoint arrays,
level lists and primary-output list are migrated to the new numbering;
`optimize_edge_layout()` likewise returns a bijective old-to-new map over
all edge ids, each relabeled edge keeps its endpoints, connectivity is
unchanged, and the adjacency lists are migrated to the new edge ids. -/
theorem claim_C5 {g g₂ g₃ : TimingGraph} {m me : List Nat} (hInv : Inv g)
    (hlev : g.levelized_ = true)
    (hokn : g.optimize_node_layout = .ok (g₂, m))
    (hoke : g.optimize_edge_layout = .ok (g₃, me)) :
    (m.length = g.numNodes ∧ (∀ v ∈ m, v < g.numNodes) ∧ m.Nodup ∧
      (∀ v, v < g.numNodes → v ∈ m)) ∧
    (∀ a, a < g.numNodes → ∀ b, b < g.numNodes →
      (g.hasEdge a b ↔ g₂.hasEdge (m.getD a 0) (m.getD b 0))) ∧
    (g₂.numNodes = g.numNodes ∧ g₂.numEdges = g.numEdges ∧
      g₂.edge_src_nodes_ = g.edge_src_nodes_.map (fun n => m.getD n 0) ∧
      g₂.edge_sink_nodes_ = g.edge_sink_nodes_.map (fun n => m.getD n 0) ∧
      g₂.level_nodes_ =
        g.level_nodes_.map (fun lvl => lvl.map (fun n => m.getD n 0)) ∧
      g₂.primary_outputs_ = g.primary_outputs_.map (fun n => m.getD n 0)) ∧
    (me.length = g.numEdges ∧ (∀ v ∈ me, v < g.numEdges) ∧ me.Nodup ∧
      (∀ v, v < g.numEdges → v ∈ me)) ∧
    (∀ e, e < g.numEdges →
      g₃.srcD (me.getD e 0) = g.srcD e ∧
      g₃.sinkD (me.getD e 0) = g.sinkD e) ∧
    (∀ a b, g₃.hasEdge a b ↔ g.hasEdge a b) ∧
    (g₃.numNodes = g.numNodes ∧ g₃.numEdges = g.numEdges ∧
      g₃.node_out_edges_ =
        g.node_out_edges_.map (fun l => l.map (fun e => me.getD e 0)) ∧
      g₃.node_in_edges_ =
        g.node_in_edges_.map (fun l => l.map (fun e => me.getD e 0))) := by
  obtain ⟨hW, hE, hA, hB, hLg⟩ := hInv
  have hL := hLg hlev
  rw [optimize_node_layout, if_neg (by simp [hlev])] at hokn
  simp only [Except.ok.injEq, Prod.mk.injEq] at hokn
  obtain ⟨hg₂, hm⟩ := hokn
  rw [optimize_edge_layout, if_neg (by simp [hlev])] at hoke
  simp only [Except.ok.injEq, Prod.mk.injEq] at hoke
  obtain ⟨hg₃, hme⟩ := hoke
  -- the node traversal order is a permutation of the node-id range
  have hond : g.level_nodes_.flatten.Nodup := hL.1
  have homem : ∀ n, n < g.numNodes → n ∈ g.level_nodes_.flatten :=
    fun n hn => hL.2.2 n (List.mem_range.mpr hn)
  have homem' : ∀ n ∈ g.level_nodes_.flatten, n < g.numNodes := hL.2.1
  have holen : g.level_nodes_.flatten.length = g.numNodes := by
    have h1 := length_eq_of_mem_iff hond (List.nodup_range g.numNodes)
      (fun a => ⟨fun ha => List.mem_range.mpr (homem' a ha),
        fun ha => homem a (List.mem_range.mp ha)⟩)
    simpa using h1
  obtain ⟨htlen, htlt, htnd, htsurj⟩ :=
    table_of_perm hond holen homem homem'
  have htget : ∀ n, n < g.numNodes →
      m.getD n 0 = (g.level_nodes_.flatten).indexOf n := by
    intro n hn
    rw [← hm]
    exact getD_map_range _ _ hn
  -- node-pass field equations
  have hfids : g₂.node_ids_ = List.range g.numNodes := by rw [← hg₂]
  have hfeids : g₂.edge_ids_ = g.edge_ids_ := by rw [← hg₂]
  have hfsrc : g₂.edge_src_nodes_ =
      g.edge_src_nodes_.map (fun n => m.getD n 0) := by
    rw [← hg₂, ← hm]
  have hfsink : g₂.edge_sink_nodes_ =
      g.edge_sink_nodes_.map (fun n => m.getD n 0) := by
    rw [← hg₂, ← hm]
  have hflvl : g₂.level_nodes_ =
      g.level_nodes_.map (fun lvl => lvl.map (fun n => m.getD n 0)) := by
    rw [← hg₂, ← hm]
  have hfpo : g₂.primary_outputs_ =
      g.primary_outputs_.map (fun n => m.getD n 0) := by
    rw [← hg₂, ← hm]
  have hN₂ : g₂.numNodes = g.numNodes := by
    rw [numNodes, hfids]
    simp
  have hE₂ : g₂.numEdges = g.numEdges := by
    rw [numEdges, hfeids]
    rfl
  have hsrcD₂ : ∀ e, e < g.numEdges →
      g₂.srcD e = m.getD (g.srcD e) 0 := by
    intro e he
    rw [srcD, hfsrc,
      getD_map_of_lt _ _ 0 _ (by rw [wflen_src_len hW]; exact he)]
    rfl
  have hsinkD₂ : ∀ e, e < g.numEdges →
      g₂.sinkD e = m.getD (g.sinkD e) 0 := by
    intro e he
    rw [sinkD, hfsink,
      getD_map_of_lt _ _ 0 _ (by rw [wflen_sink_len hW]; exact he)]
    rfl
  -- the edge traversal order is a permutation of the edge-id range
  have heomem : ∀ e, e < g.numEdges →
      e ∈ ((g.level_nodes_.flatten).map (fun n => g.outD n)).flatten := by
    intro e he
    have hsrcN := (hE e (List.mem_range.mpr he)).1
    exact List.mem_flatten.mpr ⟨g.outD (g.srcD e),
      List.mem_map.mpr ⟨g.srcD e, homem _ hsrcN, rfl⟩,
      (mem_outD_iff hA hB hsrcN).mpr ⟨he, rfl⟩⟩
  have heomem' :
      ∀ e ∈ ((g.level_nodes_.flatten).map (fun n => g.outD n)).flatten,
        e < g.numEdges := by
    intro e he
    obtain ⟨l, hl, hel⟩ := List.mem_flatten.mp he
    obtain ⟨n, hn, hln⟩ := List.mem_map.mp hl
    rw [← hln] at hel
    exact ((hA n (List.mem_range.mpr (homem' n hn))).1 e hel).1
  have heond :
      ((g.level_nodes_.flatten).map (fun n => g.outD n)).flatten.Nodup := by
    rw [List.nodup_flatten]
    constructor
    · intro l hl
      obtain ⟨n, hn, hln⟩ := List.mem_map.mp hl
      rw [← hln]
      exact outD_nodup hA hB (homem' n hn)
    · rw [List.pairwise_map]
      apply List.Pairwise.imp_of_mem ?_ hond
      intro a b ha hb hab
      intro e hea heb
      have h1 := ((hA a (List.mem_range.mpr (homem' a ha))).1 e hea).2
      have h2 := ((hA b (List.mem_range.mpr (homem' b hb))).1 e heb).2
      exact hab (h1.symm.trans h2)
  have heolen :
      ((g.level_nodes_.flatten).map (fun n => g.outD n)).flatten.length =
        g.numEdges := by
    have h1 := length_eq_of_mem_iff heond (List.nodup_range g.numEdges)
      (fun a => ⟨fun ha => List.mem_range.mpr (heomem' a ha),
        fun ha => heomem a (List.mem_range.mp ha)⟩)
    simpa using h1
  obtain ⟨helen, helt, hend, hesurj⟩ :=
    table_of_perm heond heolen heomem heomem'
  have heget : ∀ e, e < g.numEdges →
      me.getD e 0 =
        ((g.level_nodes_.flatten).map (fun n => g.outD n)).flatten.indexOf
          e := by
    intro e he
    rw [← hme]
    exact getD_map_range _ _ he
  -- edge-pass field equations
  have hfids₃ : g₃.node_ids_ = g.node_ids_ := by rw [← hg₃]
  have hfeids₃ : g₃.edge_ids_ = List.range g.numEdges := by rw [← hg₃]
  have hfsrc₃ : g₃.edge_src_nodes_ =
      ((g.level_nodes_.flatten).map (fun n => g.outD n)).flatten.map
        (fun e => g.srcD e) := by
    rw [← hg₃]
  have hfsink₃ : g₃.edge_sink_nodes_ =
      ((g.level_nodes_.flatten).map (fun n => g.outD n)).flatten.map
        (fun e => g.sinkD e) := by
    rw [← hg₃]
  have hfout₃ : g₃.node_out_edges_ =
      g.node_out_edges_.map (fun l => l.map (fun e => me.getD e 0)) := by
    rw [← hg₃, ← hme]
  have hfin₃ : g₃.node_in_edges_ =
      g.node_in_edges_.map (fun l => l.map (fun e => me.getD e 0)) := by
    rw [← hg₃, ← hme]
  have hN₃ : g₃.numNodes = g.numNodes := by
    rw [numNodes, hfids₃]
    rfl
  have hE₃ : g₃.numEdges = g.numEdges := by
    rw [numEdges, hfeids₃]
    simp
  have hsrc₃ : ∀ e, e < g.numEdges →
      g₃.srcD (me.getD e 0) = g.srcD e ∧
      g₃.sinkD (me.getD e 0) = g.sinkD e := by
    intro e he
    have hidx : ((g.level_nodes_.flatten).map
        (fun n => g.outD n)).flatten.indexOf e <
        ((g.level_nodes_.flatten).map (fun n => g.outD n)).flatten.length :=
      List.indexOf_lt_length.mpr (heomem e he)
    have hgetidx : ((g.level_nodes_.flatten).map
        (fun n => g.outD n)).flatten.getD
          (((g.level_nodes_.flatten).map
            (fun n => g.outD n)).flatten.indexOf e) 0 = e := by
      rw [getD_eq_getElem _ _ hidx]
      exact List.getElem_indexOf hidx
    constructor
    · rw [srcD, hfsrc₃, heget e he,
        getD_map_of_lt _ _ 0 _ hidx, hgetidx]
    · rw [sinkD, hfsink₃, heget e he,
        getD_map_of_lt _ _ 0 _ hidx, hgetidx]
  refine ⟨⟨by rw [← hm]; exact htlen, ?_, ?_, ?_⟩, ?_,               -- bij m
    ⟨hN₂, hE₂, hfsrc, hfsink, hflvl, hfpo⟩,
    ⟨by rw [← hme]; exact helen, ?_, ?_, ?_⟩, hsrc₃, ?_,
    ⟨hN₃, hE₃, hfout₃, hfin₃⟩⟩
  · intro v hv
    rw [← hm] at hv
    exact htlt v hv
  · rw [← hm]
    exact htnd
  · intro v hv
    rw [← hm]
    exact htsurj v hv
  · -- hasEdge relabeling for the node pass
    intro a ha b hb
    constructor
    · rintro ⟨e, he, hsa, hkb⟩
      have he' := List.mem_range.mp he
      refine ⟨e, List.mem_range.mpr (by rw [hE₂]; exact he'), ?_, ?_⟩
      · rw [hsrcD₂ e he', hsa]
      · rw [hsinkD₂ e he', hkb]
    · rintro ⟨e, he, hsa, hkb⟩
      have he' : e < g.numEdges := by
        have := List.mem_range.mp he
        rwa [hE₂] at this
      have hsrcN := (hE e (List.mem_range.mpr he')).1
      have hsinkN := (hE e (List.mem_range.mpr he')).2
      refine ⟨e, List.mem_range.mpr he', ?_, ?_⟩
      · apply idx_inj_of_perm holen homem hsrcN ha
        rw [← htget _ hsrcN, ← htget _ ha, ← hsrcD₂ e he']
        exact hsa
      · apply idx_inj_of_perm holen homem hsinkN hb
        rw [← htget _ hsinkN, ← htget _ hb, ← hsinkD₂ e he']
        exact hkb
  · intro v hv
    rw [← hme] at hv
    exact helt v hv
  · rw [← hme]
    exact hend
  · intro v hv
    rw [← hme]
    exact hesurj v hv
  · -- connectivity is unchanged by the edge pass
    intro a b
    constructor
    · rintro ⟨e, he, hsa, hkb⟩
      have he' : e < g.numEdges := by
        have := List.mem_range.mp he
        rwa [hE₃] at this
      have helen' : e < ((g.level_nodes_.flatten).map
          (fun n => g.outD n)).flatten.length := by
        rw [heolen]
        exact he'
      have hoe : ((g.level_nodes_.flatten).map
          (fun n => g.outD n)).flatten.getD e 0 ∈
          ((g.level_nodes_.flatten).map (fun n => g.outD n)).flatten := by
        rw [getD_eq_getElem _ _ helen']
        exact List.getElem_mem helen'
      refine ⟨((g.level_nodes_.flatten).map
          (fun n => g.outD n)).flatten.getD e 0,
        List.mem_range.mpr (heomem' _ hoe), ?_, ?_⟩
      · have h1 : g₃.srcD e = g.srcD (((g.level_nodes_.flatten).map
            (fun n => g.outD n)).flatten.getD e 0) := by
          rw [srcD, hfsrc₃, getD_map_of_lt _ _ 0 _ helen']
        rw [← hsa, h1]
      · have h1 : g₃.sinkD e = g.sinkD (((g.level_nodes_.flatten).map
            (fun n => g.outD n)).flatten.getD e 0) := by
          rw [sinkD, hfsink₃, getD_map_of_lt _ _ 0 _ helen']
        rw [← hkb, h1]
    · rintro ⟨e, he, hsa, hkb⟩
      have he' := List.mem_range.mp he
      have hlt := idx_lt_of_perm heolen heomem he'
      refine ⟨me.getD e 0, ?_, ?_, ?_⟩
      · rw [heget e he']
        exact List.mem_range.mpr (by rw [hE₃]; exact hlt)
      · rw [(hsrc₃ e he').1, hsa]
      · rw [(hsrc₃ e he').2, hkb]

theorem claim_C5_witness :
    Inv gDiamondL ∧ gDiamondL.levelized_ = true ∧
      (gDiamondN.2.length = gDiamondL.numNodes ∧
        (∀ v ∈ gDiamondN.2, v < gDiamondL.numNodes) ∧ gDiamondN.2.Nodup ∧
        (∀ v, v < gDiamondL.numNodes → v ∈ gDiamondN.2)) ∧
      (∀ a b, gDiamondE.1.hasEdge a b ↔ gDiamondL.hasEdge a b) :=
  ⟨by decide, rfl,
    (claim_C5 (by decide : Inv gDiamondL) rfl
      (rfl : gDiamondL.optimize_node_layout = .ok (gDiamondN.1, gDiamondN.2))
      (rfl : gDiamondL.optimize_edge_layout =
        .ok (gDiamondE.1, gDiamondE.2))).1,
    (claim_C5 (by decide : Inv gDiamondL) rfl
      (rfl : gDiamondL.optimize_node_layout = .ok (gDiamondN.1, gDiamondN.2))
      (rfl : gDiamondL.optimize_edge_layout =
        .ok (gDiamondE.1, gDiamondE.2))).2.2.2.2.2.1⟩

/-!
## Bidirectional consistency is preserved by every operation
-/

theorem getD_append_left {α : Type} (l l' : List α) (d : α) {n : Nat}
    (h : n < l.length) : (l ++ l').getD n d = l.getD n d := by
  rw [getD_eq_getElem _ _ (by rw [List.length_append]; omega),
    getD_eq_getElem _ _ h]
  exact List.getElem_append_left h

theorem bidir_add_node {g : TimingGraph} (hInv : Inv g) (type : TN_Type)
    (clock_domain : Nat) (is_clk_src : Bool) :
    BidirConsistent (g.add_node type clock_domain is_clk_src).1 := by
  obtain ⟨hW, hE, hA, hB, _⟩ := hInv
  intro e he
  have he' : e < g.numEdges := by
    simpa [add_node, numEdges] using List.mem_range.mp he
  have hNN : (g.add_node type clock_domain is_clk_src).1.numNodes =
      g.numNodes + 1 := by
    simp [add_node, numNodes]
  have houtD : ∀ n, n < g.numNodes →
      (g.add_node type clock_domain is_clk_src).1.outD n = g.outD n := by
    intro n hn
    show (g.node_out_edges_ ++ [[]]).getD n [] = _
    exact getD_append_left _ _ _ (by rw [wflen_out_len hW]; exact hn)
  have hinD : ∀ n, n < g.numNodes →
      (g.add_node type clock_domain is_clk_src).1.inD n = g.inD n := by
    intro n hn
    show (g.node_in_edges_ ++ [[]]).getD n [] = _
    exact getD_append_left _ _ _ (by rw [wflen_in_len hW]; exact hn)
  have houtN : (g.add_node type clock_domain is_clk_src).1.outD g.numNodes
      = [] := by
    show (g.node_out_edges_ ++ [[]]).getD g.numNodes [] = []
    rw [getD_eq_getElem _ _ (by rw [List.length_append, wflen_out_len hW]; simp)]
    exact List.getElem_concat_length _ _ _ (wflen_out_len hW).symm _
  have hinN : (g.add_node type clock_domain is_clk_src).1.inD g.numNodes
      = [] := by
    show (g.node_in_edges_ ++ [[]]).getD g.numNodes [] = []
    rw [getD_eq_getElem _ _ (by rw [List.length_append, wflen_in_len hW]; simp)]
    exact List.getElem_concat_length _ _ _ (wflen_in_len hW).symm _
  have hsrc : (g.add_node type clock_domain is_clk_src).1.srcD e = g.srcD e :=
    rfl
  have hsink : (g.add_node type clock_domain is_clk_src).1.sinkD e =
      g.sinkD e := rfl
  obtain ⟨hsrcN, hsinkN⟩ := hE e (List.mem_range.mpr he')
  obtain ⟨hb1, hb2, hb3, hb4⟩ := hB e (List.mem_range.mpr he')
  refine ⟨?_, ?_, ?_, ?_⟩
  · rw [hsrc, houtD _ hsrcN]
    exact hb1
  · rw [hsink, hinD _ hsinkN]
    exact hb2
  · intro n hn hne
    rw [hsrc] at hne
    have hn' : n < g.numNodes + 1 := by
      rw [hNN] at hn
      exact List.mem_range.mp hn
    by_cases hlt : n < g.numNodes
    · rw [houtD _ hlt]
      exact hb3 n (List.mem_range.mpr hlt) hne
    · have : n = g.numNodes := by omega
      rw [this, houtN]
      simp
  · intro n hn hne
    rw [hsink] at hne
    have hn' : n < g.numNodes + 1 := by
      rw [hNN] at hn
      exact List.mem_range.mp hn
    by_cases hlt : n < g.numNodes
    · rw [hinD _ hlt]
      exact hb4 n (List.mem_range.mpr hlt) hne
    · have : n = g.numNodes := by omega
      rw [this, hinN]
      simp

theorem bidir_add_edge {g g' : TimingGraph} {src_node sink_node eid : Nat}
    (hInv : Inv g) (hok : g.add_edge src_node sink_node = .ok (g', eid)) :
    BidirConsistent g' := by
  obtain ⟨hW, hE, hA, hB, _⟩ := hInv
  by_cases hvalid : (g.valid_node_id src_node && g.valid_node_id sink_node)
      = true
  case neg =>
    rw [add_edge, if_neg hvalid] at hok
    simp at hok
  case pos =>
  obtain ⟨hsrcv, hsinkv⟩ : src_node < g.numNodes ∧ sink_node < g.numNodes :=
    by simpa [valid_node_id] using hvalid
  rw [add_edge, if_pos hvalid] at hok
  simp only [Except.ok.injEq, Prod.mk.injEq] at hok
  obtain ⟨hg', heid⟩ := hok
  have hfout : g'.node_out_edges_ =
      g.node_out_edges_.set src_node (g.outD src_node ++ [g.numEdges]) := by
    rw [← hg']
  have hfin : g'.node_in_edges_ =
      g.node_in_edges_.set sink_node (g.inD sink_node ++ [g.numEdges]) := by
    rw [← hg']
  have hfsrc : g'.edge_src_nodes_ = g.edge_src_nodes_ ++ [src_node] := by
    rw [← hg']
  have hfsink : g'.edge_sink_nodes_ = g.edge_sink_nodes_ ++ [sink_node] := by
    rw [← hg']
  have hfeids : g'.edge_ids_ = g.edge_ids_ ++ [g.numEdges] := by rw [← hg']
  have hfnids : g'.node_ids_ = g.node_ids_ := by rw [← hg']
  have hE' : g'.numEdges = g.numEdges + 1 := by
    rw [numEdges, hfeids, List.length_append]
    rfl
  have hN' : g'.numNodes = g.numNodes := by
    rw [numNodes, hfnids]
    rfl
  have houtD : ∀ n, g'.outD n =
      if n = src_node then g.outD src_node ++ [g.numEdges]
      else g.outD n := by
    intro n
    rw [outD, hfout]
    by_cases hns : n = src_node
    · subst hns
      rw [if_pos rfl]
      exact getD_set_self _ _ _ (by rw [wflen_out_len hW]; exact hsrcv)
    · rw [if_neg hns]
      exact getD_set_ne _ _ _ (fun hsn => hns hsn.symm)
  have hinD : ∀ n, g'.inD n =
      if n = sink_node then g.inD sink_node ++ [g.numEdges]
      else g.inD n := by
    intro n
    rw [inD, hfin]
    by_cases hns : n = sink_node
    · subst hns
      rw [if_pos rfl]
      exact getD_set_self _ _ _ (by rw [wflen_in_len hW]; exact hsinkv)
    · rw [if_neg hns]
      exact getD_set_ne _ _ _ (fun hsn => hns hsn.symm)
  have hsrcD : ∀ e, e < g.numEdges → g'.srcD e = g.srcD e := by
    intro e he
    rw [srcD, hfsrc, getD_append_left _ _ _ (by rw [wflen_src_len hW]; exact he)]
    rfl
  have hsinkD : ∀ e, e < g.numEdges → g'.sinkD e = g.sinkD e := by
    intro e he
    rw [sinkD, hfsink,
      getD_append_left _ _ _ (by rw [wflen_sink_len hW]; exact he)]
    rfl
  have hsrcE : g'.srcD g.numEdges = src_node := by
    rw [srcD, hfsrc, getD_eq_getElem _ _
      (by rw [List.length_append, wflen_src_len hW]; simp)]
    exact List.getElem_concat_length _ _ _ (wflen_src_len hW).symm _
  have hsinkE : g'.sinkD g.numEdges = sink_node := by
    rw [sinkD, hfsink, getD_eq_getElem _ _
      (by rw [List.length_append, wflen_sink_len hW]; simp)]
    exact List.getElem_concat_length _ _ _ (wflen_sink_len hW).symm _
  intro e he
  have he2 : e < g.numEdges + 1 := by
    have := List.mem_range.mp he
    rwa [hE'] at this
  by_cases heE : e < g.numEdges
  · obtain ⟨hsrcN, hsinkN⟩ := hE e (List.mem_range.mpr heE)
    obtain ⟨hb1, hb2, hb3, hb4⟩ := hB e (List.mem_range.mpr heE)
    have hcE : (([g.numEdges] : List Nat).count e) = 0 := by
      rw [List.count_singleton]
      simp only [beq_iff_eq]
      rw [if_neg (by omega)]
    refine ⟨?_, ?_, ?_, ?_⟩
    · rw [hsrcD e heE, houtD]
      by_cases hs : g.srcD e = src_node
      · rw [if_pos hs, List.count_append, ← hs, hb1, hcE]
      · rw [if_neg hs]
        exact hb1
    · rw [hsinkD e heE, hinD]
      by_cases hs : g.sinkD e = sink_node
      · rw [if_pos hs, List.count_append, ← hs, hb2, hcE]
      · rw [if_neg hs]
        exact hb2
    · intro n hn hne
      rw [hsrcD e heE] at hne
      have hnN : n < g.numNodes := by
        have := List.mem_range.mp hn
        rwa [hN'] at this
      rw [houtD]
      by_cases hs : n = src_node
      · rw [if_pos hs, List.count_append, hcE]
        have h0 := hb3 src_node (List.mem_range.mpr hsrcv)
          (by rw [← hs]; exact hne)
        omega
      · rw [if_neg hs]
        exact hb3 n (List.mem_range.mpr hnN) hne
    · intro n hn hne
      rw [hsinkD e heE] at hne
      have hnN : n < g.numNodes := by
        have := List.mem_range.mp hn
        rwa [hN'] at this
      rw [hinD]
      by_cases hs : n = sink_node
      · rw [if_pos hs, List.count_append, hcE]
        have h0 := hb4 sink_node (List.mem_range.mpr hsinkv)
          (by rw [← hs]; exact hne)
        omega
      · rw [if_neg hs]
        exact hb4 n (List.mem_range.mpr hnN) hne
  · have heq : e = g.numEdges := by omega
    subst heq
    have hout0 : (g.outD src_node).count g.numEdges = 0 :=
      List.count_eq_zero.mpr (fun hmem => by
        have := ((hA src_node (List.mem_range.mpr hsrcv)).1 _ hmem).1
        omega)
    have hin0 : (g.inD sink_node).count g.numEdges = 0 :=
      List.count_eq_zero.mpr (fun hmem => by
        have := ((hA sink_node (List.mem_range.mpr hsinkv)).2 _ hmem).1
        omega)
    refine ⟨?_, ?_, ?_, ?_⟩
    · rw [hsrcE, houtD, if_pos rfl, List.count_append, hout0,
        List.count_singleton_self]
    · rw [hsinkE, hinD, if_pos rfl, List.count_append, hin0,
        List.count_singleton_self]
    · intro n hn hne
      rw [hsrcE] at hne
      have hnN : n < g.numNodes := by
        have := List.mem_range.mp hn
        rwa [hN'] at this
      rw [houtD, if_neg hne]
      exact List.count_eq_zero.mpr (fun hmem => by
        have := ((hA n (List.mem_range.mpr hnN)).1 _ hmem).1
        omega)
    · intro n hn hne
      rw [hsinkE] at hne
      have hnN : n < g.numNodes := by
        have := List.mem_range.mp hn
        rwa [hN'] at this
      rw [hinD, if_neg hne]
      exact List.count_eq_zero.mpr (fun hmem => by
        have := ((hA n (List.mem_range.mpr hnN)).2 _ hmem).1
        omega)

/-- `levelize()` does not touch adjacency or edge data, so bidirectional
consistency carries over. -/
theorem bidir_levelize {g g' : TimingGraph} (hInv : Inv g)
    (hok : g.levelize = .ok g') : BidirConsistent g' := by
  obtain ⟨hW, hE, hA, hB, _⟩ := hInv
  obtain ⟨_, hshape⟩ := levelize_ok_shape hok
  subst hshape
  exact hB

/-- On a levelized graph the node traversal order (levels flattened in
order) is a permutation of the node-id range. -/
theorem node_order_perm {g : TimingGraph} (hL : LevelsGood g) :
    g.level_nodes_.flatten.Nodup ∧
    g.level_nodes_.flatten.length = g.numNodes ∧
    (∀ n, n < g.numNodes → n ∈ g.level_nodes_.flatten) ∧
    (∀ n ∈ g.level_nodes_.flatten, n < g.numNodes) := by
  have homem : ∀ n, n < g.numNodes → n ∈ g.level_nodes_.flatten :=
    fun n hn => hL.2.2 n (List.mem_range.mpr hn)
  refine ⟨hL.1, ?_, homem, hL.2.1⟩
  have h1 := length_eq_of_mem_iff hL.1 (List.nodup_range g.numNodes)
    (fun a => ⟨fun ha => List.mem_range.mpr (hL.2.1 a ha),
      fun ha => homem a (List.mem_range.mp ha)⟩)
  simpa using h1

/-- On a levelized well-formed graph the edge traversal order (the out-edge
lists walked level by level) is a permutation of the edge-id range. -/
theorem edge_order_perm {g : TimingGraph} (hE : EdgeRange g)
    (hA : AdjValid g) (hB : BidirConsistent g) (hL : LevelsGood g) :
    ((g.level_nodes_.flatten).map (fun n => g.outD n)).flatten.Nodup ∧
    ((g.level_nodes_.flatten).map (fun n => g.outD n)).flatten.length =
      g.numEdges ∧
    (∀ e, e < g.numEdges →
      e ∈ ((g.level_nodes_.flatten).map (fun n => g.outD n)).flatten) ∧
    (∀ e ∈ ((g.level_nodes_.flatten).map (fun n => g.outD n)).flatten,
      e < g.numEdges) := by
  obtain ⟨hond, _, homem, homem'⟩ := node_order_perm hL
  have hmemE : ∀ e, e < g.numEdges →
      e ∈ ((g.level_nodes_.flatten).map (fun n => g.outD n)).flatten := by
    intro e he
    have hsrcN := (hE e (List.mem_range.mpr he)).1
    exact List.mem_flatten.mpr ⟨g.outD (g.srcD e),
      List.mem_map.mpr ⟨g.srcD e, homem _ hsrcN, rfl⟩,
      (mem_outD_iff hA hB hsrcN).mpr ⟨he, rfl⟩⟩
  have hmemE' :
      ∀ e ∈ ((g.level_nodes_.flatten).map (fun n => g.outD n)).flatten,
        e < g.numEdges := by
    intro e he
    obtain ⟨l, hl, hel⟩ := List.mem_flatten.mp he
    obtain ⟨n, hn, hln⟩ := List.mem_map.mp hl
    rw [← hln] at hel
    exact ((hA n (List.mem_range.mpr (homem' n hn))).1 e hel).1
  have heond :
      ((g.level_nodes_.flatten).map (fun n => g.outD n)).flatten.Nodup := by
    rw [List.nodup_flatten]
    constructor
    · intro l hl
      obtain ⟨n, hn, hln⟩ := List.mem_map.mp hl
      rw [← hln]
      exact outD_nodup hA hB (homem' n hn)
    · rw [List.pairwise_map]
      apply List.Pairwise.imp_of_mem ?_ hond
      intro a b ha hb hab
      intro e hea heb
      have h1 := ((hA a (List.mem_range.mpr (homem' a ha))).1 e hea).2
      have h2 := ((hA b (List.mem_range.mpr (homem' b hb))).1 e heb).2
      exact hab (h1.symm.trans h2)
  refine ⟨heond, ?_, hmemE, hmemE'⟩
  have h1 := length_eq_of_mem_iff heond (List.nodup_range g.numEdges)
    (fun a => ⟨fun ha => List.mem_range.mpr (hmemE' a ha),
      fun ha => hmemE a (List.mem_range.mp ha)⟩)
  simpa using h1

theorem bidir_optimize_node {g g₂ : TimingGraph} {m : List Nat}
    (hInv : Inv g) (hok : g.optimize_node_layout = .ok (g₂, m)) :
    BidirConsistent g₂ := by
  obtain ⟨hW, hE, hA, hB, hLg⟩ := hInv
  have hlev : g.levelized_ = true := by
    by_contra h
    rw [Bool.not_eq_true] at h
    rw [optimize_node_layout, if_pos h] at hok
    simp at hok
  have hL := hLg hlev
  obtain ⟨hond, holen, homem, homem'⟩ := node_order_perm hL
  rw [optimize_node_layout, if_neg (by simp [hlev])] at hok
  simp only [Except.ok.injEq, Prod.mk.injEq] at hok
  obtain ⟨hg₂, hm⟩ := hok
  have hfout : g₂.node_out_edges_ =
      g.level_nodes_.flatten.map (fun n => g.outD n) := by rw [← hg₂]
  have hfin : g₂.node_in_edges_ =
      g.level_nodes_.flatten.map (fun n => g.inD n) := by rw [← hg₂]
  have hfsrc : g₂.edge_src_nodes_ =
      g.edge_src_nodes_.map (fun n => m.getD n 0) := by rw [← hg₂, ← hm]
  have hfsink : g₂.edge_sink_nodes_ =
      g.edge_sink_nodes_.map (fun n => m.getD n 0) := by rw [← hg₂, ← hm]
  have hfeids : g₂.edge_ids_ = g.edge_ids_ := by rw [← hg₂]
  have hfnids : g₂.node_ids_ = List.range g.numNodes := by rw [← hg₂]
  have hN₂ : g₂.numNodes = g.numNodes := by
    rw [numNodes, hfnids]
    simp
  have hE₂ : g₂.numEdges = g.numEdges := by
    rw [numEdges, hfeids]
    rfl
  have htget : ∀ n, n < g.numNodes →
      m.getD n 0 = g.level_nodes_.flatten.indexOf n := by
    intro n hn
    rw [← hm]
    exact getD_map_range _ _ hn
  have houtD : ∀ k, k < g.numNodes →
      g₂.outD k = g.outD (g.level_nodes_.flatten.getD k 0) := by
    intro k hk
    rw [outD, hfout, getD_map_of_lt _ _ 0 _ (by rw [holen]; exact hk)]
  have hinD : ∀ k, k < g.numNodes →
      g₂.inD k = g.inD (g.level_nodes_.flatten.getD k 0) := by
    intro k hk
    rw [inD, hfin, getD_map_of_lt _ _ 0 _ (by rw [holen]; exact hk)]
  have hsrcD₂ : ∀ e, e < g.numEdges →
      g₂.srcD e = m.getD (g.srcD e) 0 := by
    intro e he
    rw [srcD, hfsrc,
      getD_map_of_lt _ _ 0 _ (by rw [wflen_src_len hW]; exact he)]
    rfl
  have hsinkD₂ : ∀ e, e < g.numEdges →
      g₂.sinkD e = m.getD (g.sinkD e) 0 := by
    intro e he
    rw [sinkD, hfsink,
      getD_map_of_lt _ _ 0 _ (by rw [wflen_sink_len hW]; exact he)]
    rfl
  have hgetidx : ∀ n, n < g.numNodes →
      g.level_nodes_.flatten.getD (g.level_nodes_.flatten.indexOf n) 0 =
        n := by
    intro n hn
    have hidx : g.level_nodes_.flatten.indexOf n <
        g.level_nodes_.flatten.length :=
      List.indexOf_lt_length.mpr (homem n hn)
    rw [getD_eq_getElem _ _ hidx]
    exact List.getElem_indexOf hidx
  have hidxget : ∀ k, k < g.numNodes →
      g.level_nodes_.flatten.indexOf (g.level_nodes_.flatten.getD k 0) =
        k := by
    intro k hk
    have hk' : k < g.level_nodes_.flatten.length := by
      rw [holen]
      exact hk
    rw [getD_eq_getElem _ _ hk']
    exact List.indexOf_getElem hond k hk'
  have hgetN : ∀ k, k < g.numNodes →
      g.level_nodes_.flatten.getD k 0 < g.numNodes := by
    intro k hk
    have hk' : k < g.level_nodes_.flatten.length := by
      rw [holen]
      exact hk
    rw [getD_eq_getElem _ _ hk']
    exact homem' _ (List.getElem_mem hk')
  intro e he
  have heE : e < g.numEdges := by
    have := List.mem_range.mp he
    rwa [hE₂] at this
  obtain ⟨hsrcN, hsinkN⟩ := hE e (List.mem_range.mpr heE)
  obtain ⟨hb1, hb2, hb3, hb4⟩ := hB e (List.mem_range.mpr heE)
  have hsidx : g₂.srcD e = g.level_nodes_.flatten.indexOf (g.srcD e) := by
    rw [hsrcD₂ e heE, htget _ hsrcN]
  have hkidx : g₂.sinkD e = g.level_nodes_.flatten.indexOf (g.sinkD e) := by
    rw [hsinkD₂ e heE, htget _ hsinkN]
  refine ⟨?_, ?_, ?_, ?_⟩
  · rw [hsidx, houtD _ (idx_lt_of_perm holen homem hsrcN), hgetidx _ hsrcN]
    exact hb1
  · rw [hkidx, hinD _ (idx_lt_of_perm holen homem hsinkN), hgetidx _ hsinkN]
    exact hb2
  · intro n hn hne
    have hnN : n < g.numNodes := by
      have := List.mem_range.mp hn
      rwa [hN₂] at this
    rw [houtD _ hnN]
    apply hb3 _ (List.mem_range.mpr (hgetN _ hnN))
    intro hcontra
    apply hne
    rw [hsidx, ← hcontra, hidxget _ hnN]
  · intro n hn hne
    have hnN : n < g.numNodes := by
      have := List.mem_range.mp hn
      rwa [hN₂] at this
    rw [hinD _ hnN]
    apply hb4 _ (List.mem_range.mpr (hgetN _ hnN))
    intro hcontra
    apply hne
    rw [hkidx, ← hcontra, hidxget _ hnN]

theorem count_map_eq_of_inj_on {t : Nat → Nat} {l : List Nat} {v w : Nat}
    (h : ∀ x ∈ l, (t x = v ↔ x = w)) :
    (l.map t).count v = l.count w := by
  rw [List.count_eq_countP, List.countP_map, List.count_eq_countP]
  apply List.countP_congr
  intro x hx
  simpa using h x hx

theorem bidir_optimize_edge {g g₃ : TimingGraph} {me : List Nat}
    (hInv : Inv g) (hok : g.optimize_edge_layout = .ok (g₃, me)) :
    BidirConsistent g₃ := by
  obtain ⟨hW, hE, hA, hB, hLg⟩ := hInv
  have hlev : g.levelized_ = true := by
    by_contra h
    rw [Bool.not_eq_true] at h
    rw [optimize_edge_layout, if_pos h] at hok
    simp at hok
  have hL := hLg hlev
  obtain ⟨heond, heolen, hemem, hemem'⟩ := edge_order_perm hE hA hB hL
  rw [optimize_edge_layout, if_neg (by simp [hlev])] at hok
  simp only [Except.ok.injEq, Prod.mk.injEq] at hok
  obtain ⟨hg₃, hme⟩ := hok
  have hfout : g₃.node_out_edges_ =
      g.node_out_edges_.map (fun l => l.map (fun e => me.getD e 0)) := by
    rw [← hg₃, ← hme]
  have hfin : g₃.node_in_edges_ =
      g.node_in_edges_.map (fun l => l.map (fun e => me.getD e 0)) := by
    rw [← hg₃, ← hme]
  have hfsrc : g₃.edge_src_nodes_ =
      ((g.level_nodes_.flatten).map (fun n => g.outD n)).flatten.map
        (fun e => g.srcD e) := by
    rw [← hg₃]
  have hfsink : g₃.edge_sink_nodes_ =
      ((g.level_nodes_.flatten).map (fun n => g.outD n)).flatten.map
        (fun e => g.sinkD e) := by
    rw [← hg₃]
  have hfeids : g₃.edge_ids_ = List.range g.numEdges := by rw [← hg₃]
  have hfnids : g₃.node_ids_ = g.node_ids_ := by rw [← hg₃]
  have hN₃ : g₃.numNodes = g.numNodes := by
    rw [numNodes, hfnids]
    rfl
  have hE₃ : g₃.numEdges = g.numEdges := by
    rw [numEdges, hfeids]
    simp
  have htget : ∀ e, e < g.numEdges →
      me.getD e 0 =
        ((g.level_nodes_.flatten).map (fun n => g.outD n)).flatten.indexOf
          e := by
    intro e he
    rw [← hme]
    exact getD_map_range _ _ he
  have houtD₃ : ∀ n, n < g.numNodes →
      g₃.outD n = (g.outD n).map (fun e => me.getD e 0) := by
    intro n hn
    rw [outD, hfout,
      getD_map_of_lt _ _ [] _ (by rw [wflen_out_len hW]; exact hn)]
    rfl
  have hinD₃ : ∀ n, n < g.numNodes →
      g₃.inD n = (g.inD n).map (fun e => me.getD e 0) := by
    intro n hn
    rw [inD, hfin,
      getD_map_of_lt _ _ [] _ (by rw [wflen_in_len hW]; exact hn)]
    rfl
  have hsrcD₃ : ∀ e, e < g.numEdges →
      g₃.srcD e = g.srcD
        (((g.level_nodes_.flatten).map (fun n => g.outD n)).flatten.getD
          e 0) := by
    intro e he
    rw [srcD, hfsrc, getD_map_of_lt _ _ 0 _ (by rw [heolen]; exact he)]
  have hsinkD₃ : ∀ e, e < g.numEdges →
      g₃.sinkD e = g.sinkD
        (((g.level_nodes_.flatten).map (fun n => g.outD n)).flatten.getD
          e 0) := by
    intro e he
    rw [sinkD, hfsink, getD_map_of_lt _ _ 0 _ (by rw [heolen]; exact he)]
  have hidxget : ∀ k, k < g.numEdges →
      ((g.level_nodes_.flatten).map (fun n => g.outD n)).flatten.indexOf
        (((g.level_nodes_.flatten).map (fun n => g.outD n)).flatten.getD
          k 0) = k := by
    intro k hk
    have hk' : k < ((g.level_nodes_.flatten).map
        (fun n => g.outD n)).flatten.length := by
      rw [heolen]
      exact hk
    rw [getD_eq_getElem _ _ hk']
    exact List.indexOf_getElem heond k hk'
  have hgetE : ∀ k, k < g.numEdges →
      ((g.level_nodes_.flatten).map (fun n => g.outD n)).flatten.getD k 0 <
        g.numEdges := by
    intro k hk
    have hk' : k < ((g.level_nodes_.flatten).map
        (fun n => g.outD n)).flatten.length := by
      rw [heolen]
      exact hk
    rw [getD_eq_getElem _ _ hk']
    exact hemem' _ (List.getElem_mem hk')
  intro e he
  have heE : e < g.numEdges := by
    have := List.mem_range.mp he
    rwa [hE₃] at this
  have hoeE : ((g.level_nodes_.flatten).map
      (fun n => g.outD n)).flatten.getD e 0 < g.numEdges := hgetE e heE
  obtain ⟨hsrcN, hsinkN⟩ := hE _ (List.mem_range.mpr hoeE)
  obtain ⟨hb1, hb2, hb3, hb4⟩ := hB _ (List.mem_range.mpr hoeE)
  have hkey : ∀ x, x < g.numEdges →
      (me.getD x 0 = e ↔
        x = ((g.level_nodes_.flatten).map
          (fun n => g.outD n)).flatten.getD e 0) := by
    intro x hx
    rw [htget x hx]
    constructor
    · intro hxe
      apply idx_inj_of_perm heolen hemem hx hoeE
      rw [hxe, hidxget e heE]
    · intro hxoe
      rw [hxoe]
      exact hidxget e heE
  have hcountOut : ∀ n, n < g.numNodes →
      (g₃.outD n).count e = (g.outD n).count
        (((g.level_nodes_.flatten).map
          (fun n => g.outD n)).flatten.getD e 0) := by
    intro n hn
    rw [houtD₃ _ hn]
    apply count_map_eq_of_inj_on
    intro x hxl
    exact hkey x ((hA n (List.mem_range.mpr hn)).1 x hxl).1
  have hcountIn : ∀ n, n < g.numNodes →
      (g₃.inD n).count e = (g.inD n).count
        (((g.level_nodes_.flatten).map
          (fun n => g.outD n)).flatten.getD e 0) := by
    intro n hn
    rw [hinD₃ _ hn]
    apply count_map_eq_of_inj_on
    intro x hxl
    exact hkey x ((hA n (List.mem_range.mpr hn)).2 x hxl).1
  refine ⟨?_, ?_, ?_, ?_⟩
  · rw [hsrcD₃ e heE, hcountOut _ hsrcN]
    exact hb1
  · rw [hsinkD₃ e heE, hcountIn _ hsinkN]
    exact hb2
  · intro n hn hne
    have hnN : n < g.numNodes := by
      have := List.mem_range.mp hn
      rwa [hN₃] at this
    rw [hcountOut _ hnN]
    apply hb3 n (List.mem_range.mpr hnN)
    rw [hsrcD₃ e heE] at hne
    exact hne
  · intro n hn hne
    have hnN : n < g.numNodes := by
      have := List.mem_range.mp hn
      rwa [hN₃] at this
    rw [hcountIn _ hnN]
    apply hb4 n (List.mem_range.mpr hnN)
    rw [hsinkD₃ e heE] at hne
    exact hne

/-- Claim C2: bidirectional adjacency consistency — every edge appears
exactly once in its source's out-edge list and exactly once in its sink's
in-edge list, and in no other node's adjacency lists — holds initially and
is preserved by every operation: `add_node`, a successful `add_edge`, a
successful `levelize()`, and both layout-optimization passes (on any
well-formed input graph). -/
theorem claim_C2 :
    BidirConsistent emptyTimingGraph ∧
    (∀ (g : TimingGraph) (type : TN_Type) (clock_domain : Nat)
      (is_clk_src : Bool), Inv g →
        BidirConsistent (g.add_node type clock_domain is_clk_src).1) ∧
    (∀ (g g' : TimingGraph) (src_node sink_node eid : Nat), Inv g →
      g.add_edge src_node sink_node = .ok (g', eid) →
        BidirConsistent g') ∧
    (∀ g g' : TimingGraph, Inv g → g.levelize = .ok g' →
      BidirConsistent g') ∧
    (∀ (g g₂ : TimingGraph) (m : List Nat), Inv g →
      g.optimize_node_layout = .ok (g₂, m) → BidirConsistent g₂) ∧
    (∀ (g g₃ : TimingGraph) (me : List Nat), Inv g →
      g.optimize_edge_layout = .ok (g₃, me) → BidirConsistent g₃) :=
  ⟨by decide,
    fun _ type clock_domain is_clk_src hInv =>
      bidir_add_node hInv type clock_domain is_clk_src,
    fun _ _ _ _ _ hInv hok => bidir_add_edge hInv hok,
    fun _ _ hInv hok => bidir_levelize hInv hok,
    fun _ _ _ hInv hok => bidir_optimize_node hInv hok,
    fun _ _ _ hInv hok => bidir_optimize_edge hInv hok⟩

theorem claim_C2_witness :
    Inv gDiamond ∧ BidirConsistent gDiamondL ∧
      BidirConsistent (gDiamond.add_node .COMB_PIN 0 false).1 :=
  ⟨by decide,
    claim_C2.2.2.2.1 gDiamond gDiamondL (by decide) rfl,
    claim_C2.2.1 gDiamond .COMB_PIN 0 false (by decide)⟩

end TimingGraph

end Tatum
